import Mathlib

/-!
Shallow embedding of the `nuclideUri` path/URI library (the unified
local / remote / archive-member location abstraction) and verification of
the frozen claims about it.

Strings are modelled as `List Char`.  JavaScript string operations used by
the source are modelled with their exact JS semantics:

* `String.prototype.replace(pat, rep)` with a string pattern replaces only
  the FIRST occurrence (`replaceFirst` below);
* `String.prototype.indexOf(pat, from)` clamps a negative `from` to `0`
  and returns `-1` when the pattern does not occur (`jsIndexOfFrom`);
* `String.prototype.split(c)` on a single-character separator is
  `List.splitOn` (in particular `"".split(c) = [""]`);
* `String.prototype.charAt(i)` out of range compares unequal to any
  one-character string (modelled with `Option Char`).

Functions that `throw` in the source return `Except UriErr _` here, with
one error constructor per throw site.
-/

namespace NuclideUri

/-- JS `s.indexOf(pat)` search: returns the least absolute index `≥ i`
(where `s` is the remaining suffix whose first element has absolute index
`i`) at which `pat` occurs, or `none`. -/
def findFrom (pat : List Char) : List Char → Nat → Option Nat
  | [], i => if pat.isPrefixOf ([] : List Char) then some i else none
  | c :: rest, i =>
    if pat.isPrefixOf (c :: rest) then some i else findFrom pat rest (i + 1)

/-- JS `s.replace(pat, rep)` with a string pattern: replaces the first
occurrence of `pat` only; returns `s` unchanged when `pat` does not occur. -/
def replaceFirst : List Char → List Char → List Char → List Char
  | [], pat, rep => if pat.isPrefixOf ([] : List Char) then rep else []
  | c :: rest, pat, rep =>
    if pat.isPrefixOf (c :: rest) then rep ++ (c :: rest).drop pat.length
    else c :: replaceFirst rest pat rep

/-- JS `s.charAt(i)` (out-of-range yields the empty string, which is never
equal to a one-character string; modelled as `none`). -/
def charAt (s : List Char) (i : Int) : Option Char :=
  if i < 0 then none else s.get? i.toNat

/-- JS `s.indexOf(pat, from)`: negative `from` is clamped to `0`; returns
`-1` when not found. -/
def jsIndexOfFrom (s pat : List Char) (start : Int) : Int :=
  match findFrom pat (s.drop start.toNat) start.toNat with
  | some n => (n : Int)
  | none => -1

/-- ARCHIVE_SEPARATOR = '!' -/
def archiveSep : Char := '!'

/-- The characters of the extension ".jar". -/
def jarExt : List Char := ['.', 'j', 'a', 'r']

/-- The characters of the extension ".zip". -/
def zipExt : List Char := ['.', 'z', 'i', 'p']

/-- KNOWN_ARCHIVE_EXTENSIONS = ['.jar', '.zip'] (order matters: the codec
folds over this list). -/
def knownArchiveExtensions : List (List Char) := [jarExt, zipExt]

/-- REMOTE_PATH_URI_PREFIX = 'nuclide://' -/
def remoteUriToken : List Char :=
  ['n', 'u', 'c', 'l', 'i', 'd', 'e', ':', '/', '/']

/-- The reserved editor-internal scheme marker 'atom://'. -/
def atomUriToken : List Char := ['a', 't', 'o', 'm', ':', '/', '/']

/-- The generic scheme marker '://' that `parse` and `_pathModuleFor`
look for with `indexOf`. -/
def schemeMarker : List Char := [':', '/', '/']

/-- Source `_isArchiveSeparator(path, index)`: character at `index` is '!'
and `path.indexOf(ext, index - ext.length) === index - ext.length` for some
known extension.  Note the faithful JS `indexOf` semantics: for
`index = ext.length - 1` the start index is `-1` and the comparison holds
exactly when the extension does not occur in `path` at all. -/
def isArchiveSeparator (path : List Char) (index : Int) : Bool :=
  decide ((path.length : Int) > index) &&
  (charAt path index == some archiveSep) &&
  knownArchiveExtensions.any fun ext =>
    jsIndexOfFrom path ext (index - (ext.length : Int)) ==
      index - (ext.length : Int)

/-- Source `_endsWithArchiveSeparator(path)`. -/
def endsWithArchiveSeparator (path : List Char) : Bool :=
  isArchiveSeparator path ((path.length : Int) - 1)

/-- Source `_trimArchiveSuffix(path)`: strips one trailing archive
separator when present. -/
def trimArchiveSuffix (path : List Char) : List Char :=
  if endsWithArchiveSeparator path then path.take (path.length - 1)
  else path

/-- Source `_archiveEncode(uriPathModule, uri)` with the module's ordinary
separator abstracted to `sep`.  The guard `uri.indexOf(ARCHIVE_SEPARATOR) < 0`
is modelled as `archiveSep ∉ s`; the reduce over the known extensions
performs a JS first-occurrence `replace` for each extension. -/
def archiveEncodeWith (sep : Char) (s : List Char) : List Char :=
  if archiveSep ∈ s then
    knownArchiveExtensions.foldl
      (fun acc ext =>
        replaceFirst acc (ext ++ [archiveSep]) (ext ++ [archiveSep, sep]))
      s
  else s

/-- Source `_archiveDecode(uriPathModule, uri)` with the module's ordinary
separator abstracted to `sep`. -/
def archiveDecodeWith (sep : Char) (s : List Char) : List Char :=
  if archiveSep ∈ s then
    trimArchiveSuffix
      (knownArchiveExtensions.foldl
        (fun acc ext =>
          replaceFirst acc (ext ++ [archiveSep, sep]) (ext ++ [archiveSep]))
        s)
  else s

/-- The pattern ".jar!" rewritten by the archive codec. -/
def jarBang : List Char := jarExt ++ [archiveSep]

/-- The pattern ".zip!" rewritten by the archive codec. -/
def zipBang : List Char := zipExt ++ [archiveSep]

/-- One of the recognized archive extensions ends exactly at position `i`
of `s` (the claims' notion of an archive separator being "immediately
preceded by a recognized archive extension"). -/
def extEndsAt (s : List Char) (i : Nat) : Bool :=
  jarExt.isSuffixOf (s.take i) || zipExt.isSuffixOf (s.take i)

/-- The precondition of the round-trip claim, as a computable check:
every occurrence of the archive separator is immediately preceded by a
recognized archive extension and is not immediately followed by another
archive separator. -/
def archiveSepsWellFormed (s : List Char) : Bool :=
  (List.range s.length).all fun i =>
    if s.get? i = some archiveSep then
      extEndsAt s i && (s.get? (i + 1) != some archiveSep)
    else true

/-- The two path dialects provided by Node's `path` module. -/
inductive Dialect
  | posix
  | win32
deriving DecidableEq, Repr

/-- The dialect's ordinary path separator (`pathModule.sep`). -/
def sepOf : Dialect → Char
  | .posix => '/'
  | .win32 => '\\'

/-- The dialect's path-list delimiter (`pathModule.delimiter`). -/
def delimOf : Dialect → Char
  | .posix => ':'
  | .win32 => ';'

/-- Source `_archiveEncode` applied with a dialect's separator. -/
def archiveEncode (d : Dialect) (s : List Char) : List Char :=
  archiveEncodeWith (sepOf d) s

/-- Source `_archiveDecode` applied with a dialect's separator. -/
def archiveDecode (d : Dialect) (s : List Char) : List Char :=
  archiveDecodeWith (sepOf d) s

/-- One constructor per throw site of the source. -/
inductive UriErr
  | atomUri
  | endsWithArchiveSep
  | remoteNoPath
  | remoteEmptyHostname
  | localHasScheme
  | remoteExpected
  | emptyRemotePath
  | crossHost
  | missingHome
  | remoteInSplitPathList
  | remoteInJoinPathList
deriving DecidableEq, Repr

/-- The spec groups these failure kinds under the name IllegalLocation:
internal-scheme URI, value ending with an unterminated archive separator,
remote parse failures, and a foreign scheme marker in a local value. -/
def UriErr.isIllegalLocation : UriErr → Bool
  | .atomUri => true
  | .endsWithArchiveSep => true
  | .remoteNoPath => true
  | .remoteEmptyHostname => true
  | .localHasScheme => true
  | _ => false

/-- Source `isRemote(uri)`. -/
def isRemote (uri : List Char) : Bool :=
  remoteUriToken.isPrefixOf uri

/-- Source `isAtomUri(uri)`. -/
def isAtomUri (uri : List Char) : Bool :=
  atomUriToken.isPrefixOf uri

/-- Source `_testForIllegalUri(uri)` (for a non-null argument). -/
def testForIllegalUri (uri : List Char) : Except UriErr Unit :=
  if isAtomUri uri then .error .atomUri
  else if endsWithArchiveSeparator uri then .error .endsWithArchiveSep
  else .ok ()

/-- Source `_pathModuleFor(uri)` without its archive-separator guard:
the four-step dialect-selection heuristic. -/
def pathModuleForCore (uri : List Char) : Dialect :=
  if uri.head? = some '/' then .posix
  else if schemeMarker <:+: uri then .posix
  else if uri.get? 1 = some ':' ∧ uri.get? 2 = some '\\' then .win32
  else if (uri.splitOn '\\').length > (uri.splitOn '/').length then .win32
  else .posix

/-- Source `_pathModuleFor(uri)` including its invariant: throws when the
string ends with an unterminated archive separator. -/
def pathModuleFor (uri : List Char) : Except UriErr Dialect :=
  if endsWithArchiveSeparator uri then .error .endsWithArchiveSep
  else .ok (pathModuleForCore uri)

/-- Result type of `parse`. -/
structure ParsedUrl where
  hostname : Option (List Char)
  path : List Char
deriving DecidableEq, Repr

/-- Source `createRemoteUri(hostname, remotePath)`. -/
def createRemoteUri (hostname remotePath : List Char) :
    Except UriErr (List Char) :=
  if remotePath = [] then .error .emptyRemotePath
  else .ok (remoteUriToken ++ hostname ++ remotePath)

/-- Source `parse(uri)`. -/
def parse (uri : List Char) : Except UriErr ParsedUrl :=
  if remoteUriToken.isPrefixOf uri then
    let hostAndPath := uri.drop remoteUriToken.length
    match findFrom ['/'] hostAndPath 0 with
    | none => .error .remoteNoPath
    | some hostSep =>
      let hostname := hostAndPath.take hostSep
      if hostname = [] then .error .remoteEmptyHostname
      else if endsWithArchiveSeparator uri then .error .endsWithArchiveSep
      else .ok ⟨some hostname, hostAndPath.drop hostSep⟩
  else if schemeMarker <:+: uri then .error .localHasScheme
  else if endsWithArchiveSeparator uri then .error .endsWithArchiveSep
  else .ok ⟨none, uri⟩

/-- Source `parseRemoteUri(remoteUri)`, returning the (hostname, path)
pair. -/
def parseRemoteUri (remoteUri : List Char) :
    Except UriErr (List Char × List Char) :=
  if ¬ isRemote remoteUri then .error .remoteExpected
  else
    match parse remoteUri with
    | .error e => .error e
    | .ok pu =>
      match pu.hostname with
      | none => .error .remoteEmptyHostname
      | some h => .ok (h, pu.path)

/-- Source `getPath(uri)`. -/
def getPath (uri : List Char) : Except UriErr (List Char) :=
  (parse uri).map (·.path)

/-- Source `getHostname(remoteUri)`. -/
def getHostname (remoteUri : List Char) : Except UriErr (List Char) :=
  (parseRemoteUri remoteUri).map (·.1)

/-! ## Node `path` module

The source delegates the dialect-sensitive path algorithms to Node's
`path.posix` / `path.win32`.  The following definitions model Node's
implementations.  `process.cwd()` is supplied as an explicit `cwd`
parameter where Node's `resolve` consults it; the per-drive cwd
environment entries of Windows are not modelled. -/

/-- Node `normalizeString`, segment-stack form: drops empty and `.`
segments, resolves `..` against the stack, and keeps leading `..`
segments only when `allowAboveRoot`. -/
def normSegs (allowAboveRoot : Bool) : List (List Char) → List (List Char) → List (List Char)
  | acc, [] => acc.reverse
  | acc, seg :: rest =>
    if seg = [] ∨ seg = ['.'] then normSegs allowAboveRoot acc rest
    else if seg = ['.', '.'] then
      match acc with
      | [] =>
        if allowAboveRoot then normSegs allowAboveRoot [['.', '.']] rest
        else normSegs allowAboveRoot [] rest
      | top :: acc' =>
        if top = ['.', '.'] then
          if allowAboveRoot then normSegs allowAboveRoot (seg :: top :: acc') rest
          else normSegs allowAboveRoot (top :: acc') rest
        else normSegs allowAboveRoot acc' rest
    else normSegs allowAboveRoot (seg :: acc) rest

/-- Node `path.posix.normalize`. -/
def posixNormalize (s : List Char) : List Char :=
  if s = [] then ['.']
  else
    let isAbs := s.head? = some '/'
    let trailingSep := s.getLast? = some '/'
    let core := List.intercalate ['/'] (normSegs (!isAbs) [] (s.splitOn '/'))
    if core = [] then
      if isAbs then ['/'] else if trailingSep then ['.', '/'] else ['.']
    else
      let core' := if trailingSep then core ++ ['/'] else core
      if isAbs then '/' :: core' else core'

/-- Node `path.posix.join`. -/
def posixJoin (paths : List (List Char)) : List Char :=
  if paths = [] then ['.']
  else
    let joined := List.intercalate ['/'] (paths.filter (· ≠ []))
    if joined = [] then ['.'] else posixNormalize joined

/-- The accumulation loop of Node `path.posix.resolve`: consumes the
argument list from the right, stopping at the first absolute path. -/
def posixResolveAcc : List (List Char) → List Char → Bool × List Char
  | [], acc => (false, acc)
  | p :: rest, acc =>
    if p = [] then posixResolveAcc rest acc
    else if p.head? = some '/' then (true, p ++ '/' :: acc)
    else posixResolveAcc rest (p ++ '/' :: acc)

/-- Node `path.posix.resolve` with the process working directory as an
explicit parameter. -/
def posixResolve (cwd : List Char) (paths : List (List Char)) : List Char :=
  let st := posixResolveAcc paths.reverse []
  let st :=
    if st.1 then st
    else if cwd = [] then st
    else (cwd.head? = some '/', cwd ++ '/' :: st.2)
  let core := List.intercalate ['/'] (normSegs (!st.1) [] (st.2.splitOn '/'))
  if st.1 then '/' :: core
  else if core = [] then ['.'] else core

/-- Node `path.posix.dirname`. -/
def posixDirname (s : List Char) : List Char :=
  if s = [] then ['.']
  else
    let hasRoot := s.head? = some '/'
    let rt := (s.drop 1).reverse
    let rt := rt.dropWhile (· = '/')
    let rt := rt.dropWhile (· ≠ '/')
    if rt = [] then (if hasRoot then ['/'] else ['.'])
    else if hasRoot ∧ rt.length = 1 then ['/', '/']
    else s.take rt.length

/-- Length of the common prefix of two character lists (the comparison
loop of Node `relative`). -/
def commonPrefixLen : List Char → List Char → Nat
  | a :: as, b :: bs => if a = b then commonPrefixLen as bs + 1 else 0
  | _, _ => 0

/-- The largest index `j < n` with `l[j] = c`, as a JS-style `-1`-defaulted
integer (the `lastCommonSep` bookkeeping of Node `relative`). -/
def lastIndexLtOf (l : List Char) (n : Nat) (c : Char) : Int :=
  match ((List.range n).filter fun j => l.get? j = some c).getLast? with
  | some j => (j : Int)
  | none => -1

/-- Node `path.posix.relative` (both arguments are first resolved against
`cwd`). -/
def posixRelative (cwd a b : List Char) : List Char :=
  if a = b then []
  else
    let f := posixResolve cwd [a]
    let t := posixResolve cwd [b]
    if f = t then []
    else
      let f' := f.drop 1
      let t' := t.drop 1
      let len := min f'.length t'.length
      let i := commonPrefixLen f' t'
      if i = len ∧ t'.length > len ∧ t'.get? i = some '/' then
        t'.drop (i + 1)
      else if i = len ∧ t'.length > len ∧ i = 0 then t'
      else
        let lcs : Int :=
          if i = len ∧ f'.length > len ∧ f'.get? i = some '/' then (i : Int)
          else if i = len ∧ f'.length > len ∧ i = 0 then 0
          else lastIndexLtOf f' i '/'
        let n := ((f'.drop ((lcs + 1).toNat)).count '/') + 1
        let out := List.intercalate ['/'] (List.replicate n ['.', '.'])
        out ++ t.drop ((1 + lcs).toNat)

/-- Node `isPathSeparator` for the win32 dialect. -/
def isPathSep (c : Char) : Bool := c = '\\' || c = '/'

/-- Node `isWindowsDeviceRoot`: an ASCII letter. -/
def isWindowsDeviceRoot (c : Char) : Bool :=
  decide ('A' ≤ c ∧ c ≤ 'Z') || decide ('a' ≤ c ∧ c ≤ 'z')

/-- Root analysis of Node `path.win32.normalize`: either an early full
result (the bare-UNC-root case) or the parsed (device, rootEnd,
isAbsolute) triple. -/
inductive Win32Root
  | early (result : List Char)
  | root (device : Option (List Char)) (rootEnd : Nat) (isAbs : Bool)

/-- The root-parsing phase of Node `path.win32.normalize` (for inputs of
length at least two). -/
def parseWin32NormRoot (s : List Char) : Win32Root :=
  match s with
  | c0 :: c1 :: _ =>
    if isPathSep c0 then
      if isPathSep c1 then
        let rest2 := s.drop 2
        let part1 := rest2.takeWhile (fun c => !isPathSep c)
        let after1 := rest2.drop part1.length
        if part1 ≠ [] ∧ after1 ≠ [] then
          let seps := after1.takeWhile isPathSep
          let rest3 := after1.drop seps.length
          if rest3 ≠ [] then
            let part2 := rest3.takeWhile (fun c => !isPathSep c)
            if part2.length = rest3.length then
              .early (['\\', '\\'] ++ part1 ++ ['\\'] ++ rest3 ++ ['\\'])
            else if part2 ≠ [] then
              .root (some (['\\', '\\'] ++ part1 ++ ['\\'] ++ part2))
                (2 + part1.length + seps.length + part2.length) true
            else .root none 0 true
          else .root none 0 true
        else .root none 0 true
      else .root none 1 true
    else if isWindowsDeviceRoot c0 ∧ c1 = ':' then
      if (s.get? 2).any isPathSep then .root (some [c0, ':']) 3 true
      else .root (some [c0, ':']) 2 false
    else .root none 0 false
  | _ => .root none 0 false

/-- Node `path.win32.normalize`. -/
def win32Normalize (s : List Char) : List Char :=
  if s = [] then ['.']
  else if s.length = 1 then (if s = ['/'] then ['\\'] else s)
  else
    match parseWin32NormRoot s with
    | .early r => r
    | .root device rootEnd isAbs =>
      let tail0 :=
        if rootEnd < s.length then
          List.intercalate ['\\']
            (normSegs (!isAbs) [] (List.splitOnP isPathSep (s.drop rootEnd)))
        else []
      let tail1 := if tail0 = [] ∧ ¬isAbs then ['.'] else tail0
      let tail2 :=
        if tail1 ≠ [] ∧ (s.getLast? |>.any isPathSep) then tail1 ++ ['\\']
        else tail1
      match device with
      | none => if isAbs then '\\' :: tail2 else tail2
      | some dev => if isAbs then dev ++ '\\' :: tail2 else dev ++ tail2

/-- Node `path.win32.join`, including its UNC-root slash compression. -/
def win32Join (paths : List (List Char)) : List Char :=
  if paths = [] then ['.']
  else
    match paths.filter (· ≠ []) with
    | [] => ['.']
    | firstPart :: restParts =>
      let joined := List.intercalate ['\\'] (firstPart :: restParts)
      let slashCount : Option Nat :=
        if isPathSep (firstPart.headD ' ') then
          if firstPart.length > 1 ∧ isPathSep ((firstPart.get? 1).getD ' ') then
            if firstPart.length > 2 then
              if isPathSep ((firstPart.get? 2).getD ' ') then some 3 else none
            else some 2
          else some 1
        else some 0
      match slashCount with
      | none => win32Normalize joined
      | some k =>
        let k := k + ((joined.drop k).takeWhile isPathSep).length
        let joined := if k ≥ 2 then '\\' :: joined.drop k else joined
        win32Normalize joined

/-- The root-parsing phase of Node `path.win32.resolve`: (device, rootEnd,
isAbsolute). -/
def parseWin32ResolveRoot (s : List Char) : Option (List Char) × Nat × Bool :=
  match s with
  | [] => (none, 0, false)
  | [c0] => if isPathSep c0 then (none, 1, true) else (none, 0, false)
  | c0 :: c1 :: _ =>
    if isPathSep c0 then
      if isPathSep c1 then
        let rest2 := s.drop 2
        let part1 := rest2.takeWhile (fun c => !isPathSep c)
        let after1 := rest2.drop part1.length
        if part1 ≠ [] ∧ after1 ≠ [] then
          let seps := after1.takeWhile isPathSep
          let rest3 := after1.drop seps.length
          if rest3 ≠ [] then
            let part2 := rest3.takeWhile (fun c => !isPathSep c)
            if part2.length = rest3.length ∨ part2 ≠ [] then
              (some (['\\', '\\'] ++ part1 ++ ['\\'] ++ part2),
                2 + part1.length + seps.length + part2.length, true)
            else (none, 0, true)
          else (none, 0, true)
        else (none, 0, true)
      else (none, 1, true)
    else if isWindowsDeviceRoot c0 ∧ c1 = ':' then
      if (s.get? 2).any isPathSep then (some [c0, ':'], 3, true)
      else (some [c0, ':'], 2, false)
    else (none, 0, false)

/-- The accumulation loop of Node `path.win32.resolve`: consumes the
argument list from the right, tracking the resolved device, tail and
absoluteness. -/
def win32ResolveGo :
    List (List Char) → Option (List Char) → List Char → Bool →
      Option (List Char) × List Char × Bool
  | [], dev, tail, abs => (dev, tail, abs)
  | p :: rest, dev, tail, abs =>
    if p = [] then win32ResolveGo rest dev tail abs
    else
      let r := parseWin32ResolveRoot p
      if r.1.isSome ∧ dev.isSome ∧
          (r.1.getD []).map Char.toLower ≠ (dev.getD []).map Char.toLower then
        win32ResolveGo rest dev tail abs
      else
        let dev' := if dev.isNone ∧ r.1.isSome then r.1 else dev
        let st :=
          if ¬abs then (p.drop r.2.1 ++ '\\' :: tail, r.2.2) else (tail, abs)
        if st.2 ∧ dev'.isSome then (dev', st.1, st.2)
        else win32ResolveGo rest dev' st.1 st.2

/-- Node `path.win32.resolve` with the process working directory as an
explicit parameter. -/
def win32Resolve (cwd : List Char) (paths : List (List Char)) : List Char :=
  let st := win32ResolveGo (paths.reverse ++ [cwd]) none [] false
  let core :=
    List.intercalate ['\\'] (normSegs (!st.2.2) [] (List.splitOnP isPathSep st.2.1))
  let devL := (st.1).getD []
  let r := if st.2.2 then devL ++ '\\' :: core else devL ++ core
  if r = [] then ['.'] else r

/-- Node `path.win32.relative` (both arguments are first resolved against
`cwd`; the comparison is case-insensitive, the result is sliced from the
original resolved strings). -/
def win32Relative (cwd a b : List Char) : List Char :=
  if a = b then []
  else
    let fOrig := win32Resolve cwd [a]
    let tOrig := win32Resolve cwd [b]
    if fOrig = tOrig then []
    else
      let f := fOrig.map Char.toLower
      let t := tOrig.map Char.toLower
      if f = t then []
      else
        let fStart := (f.takeWhile (· = '\\')).length
        let fEnd := f.length - ((f.drop fStart).reverse.takeWhile (· = '\\')).length
        let fLen := fEnd - fStart
        let tStart := (t.takeWhile (· = '\\')).length
        let tEnd := t.length - ((t.drop tStart).reverse.takeWhile (· = '\\')).length
        let tLen := tEnd - tStart
        let len := min fLen tLen
        let ftr := (f.take fEnd).drop fStart
        let ttr := (t.take tEnd).drop tStart
        let i := commonPrefixLen ftr ttr
        if i ≠ len ∧ lastIndexLtOf ftr i '\\' = -1 then tOrig
        else if i = len ∧ tLen > len ∧ t.get? (tStart + i) = some '\\' then
          tOrig.drop (tStart + i + 1)
        else if i = len ∧ tLen > len ∧ i = 2 then
          tOrig.drop (tStart + i)
        else
          let lcs : Int :=
            if i = len then
              let l0 : Int :=
                if fLen > len ∧ f.get? (fStart + i) = some '\\' then (i : Int)
                else if fLen > len ∧ i = 2 then 3
                else lastIndexLtOf ftr i '\\'
              if l0 = -1 then 0 else l0
            else lastIndexLtOf ftr i '\\'
          let n :=
            if fStart + (lcs + 1).toNat > fEnd then 0
            else (((f.take fEnd).drop (fStart + (lcs + 1).toNat)).count '\\') + 1
          let out := List.intercalate ['\\'] (List.replicate n ['.', '.'])
          let tS := tStart + lcs.toNat
          if out ≠ [] then out ++ (tOrig.take tEnd).drop tS
          else
            let tS := if tOrig.get? tS = some '\\' then tS + 1 else tS
            (tOrig.take tEnd).drop tS

/-- Node `path.posix.isAbsolute` / `path.win32.isAbsolute`, selected by
dialect. -/
def nodeIsAbsolute : Dialect → List Char → Bool
  | .posix, s => s.head? = some '/'
  | .win32, s =>
    s ≠ [] ∧
      (isPathSep (s.headD ' ') ∨
        (s.length > 2 ∧ isWindowsDeviceRoot (s.headD ' ') ∧
          s.get? 1 = some ':' ∧ (s.get? 2).any isPathSep))

/-- Dialect dispatch for Node `normalize`. -/
def nodeNormalize : Dialect → List Char → List Char
  | .posix => posixNormalize
  | .win32 => win32Normalize

/-- Dialect dispatch for Node `join`. -/
def nodeJoin : Dialect → List (List Char) → List Char
  | .posix => posixJoin
  | .win32 => win32Join

/-- Dialect dispatch for Node `resolve`. -/
def nodeResolve : Dialect → List Char → List (List Char) → List Char
  | .posix => posixResolve
  | .win32 => win32Resolve

/-- Node `path.win32.dirname`. -/
def win32Dirname (s : List Char) : List Char :=
  match s with
  | [] => ['.']
  | [c0] => if isPathSep c0 then [c0] else ['.']
  | c0 :: c1 :: _ =>
    let st : Option (Int × Nat) :=
      if isPathSep c0 then
        if isPathSep c1 then
          let rest2 := s.drop 2
          let part1 := rest2.takeWhile (fun c => !isPathSep c)
          let after1 := rest2.drop part1.length
          if part1 ≠ [] ∧ after1 ≠ [] then
            let seps := after1.takeWhile isPathSep
            let rest3 := after1.drop seps.length
            if rest3 ≠ [] then
              let part2 := rest3.takeWhile (fun c => !isPathSep c)
              if part2.length = rest3.length then none
              else if part2 ≠ [] then
                let j := 2 + part1.length + seps.length + part2.length
                some ((j + 1 : Nat), j + 1)
              else some (1, 1)
            else some (1, 1)
          else some (1, 1)
        else some (1, 1)
      else if isWindowsDeviceRoot c0 ∧ c1 = ':' then
        let re := if (s.get? 2).any isPathSep then 3 else 2
        some ((re : Nat), re)
      else some (-1, 0)
    match st with
    | none => s
    | some (rootEnd, offset) =>
      let rt := (s.drop offset).reverse
      let rt := rt.dropWhile isPathSep
      let rt := rt.dropWhile (fun c => !isPathSep c)
      if rt = [] then
        if rootEnd = -1 then ['.'] else s.take rootEnd.toNat
      else s.take (offset + rt.length - 1)

/-- Dialect dispatch for Node `dirname`. -/
def nodeDirname : Dialect → List Char → List Char
  | .posix => posixDirname
  | .win32 => win32Dirname

/-- Dialect dispatch for Node `relative`. -/
def nodeRelative : Dialect → List Char → List Char → List Char → List Char
  | .posix => posixRelative
  | .win32 => win32Relative

/-! ## Public path operations of the source -/

/-- Source `join(uri, ...relativePath)`. -/
def join (uri : List Char) (relativePath : List (List Char)) :
    Except UriErr (List Char) := do
  testForIllegalUri uri
  let m ← pathModuleFor uri
  if isRemote uri then do
    let hp ← parseRemoteUri uri
    let args := (hp.2 :: relativePath).map (archiveEncode m)
    let r ← createRemoteUri hp.1 (nodeJoin m args)
    return archiveDecode m r
  else
    return archiveDecode m (nodeJoin m ((uri :: relativePath).map (archiveEncode m)))

/-- Source `normalize(uri)`. -/
def normalize (uri : List Char) : Except UriErr (List Char) := do
  testForIllegalUri uri
  let m ← pathModuleFor uri
  if isRemote uri then do
    let hp ← parseRemoteUri uri
    let normal := archiveDecode m (nodeNormalize m (archiveEncode m hp.2))
    createRemoteUri hp.1 normal
  else
    return archiveDecode m (nodeNormalize m (archiveEncode m uri))

/-- Source `dirname(uri)`. -/
def dirname (uri : List Char) : Except UriErr (List Char) := do
  testForIllegalUri uri
  let m ← pathModuleFor uri
  if isRemote uri then do
    let hp ← parseRemoteUri uri
    createRemoteUri hp.1 (archiveDecode m (nodeDirname m (archiveEncode m hp.2)))
  else
    return archiveDecode m (nodeDirname m (archiveEncode m uri))

/-- Source `resolve(uri, ...paths)` (the working directory consulted by
Node's `resolve` is the explicit `cwd` parameter). -/
def resolve (cwd : List Char) (uri : List Char) (paths : List (List Char)) :
    Except UriErr (List Char) := do
  testForIllegalUri uri
  let m ← pathModuleFor uri
  if isRemote uri then do
    let hp ← parseRemoteUri uri
    createRemoteUri hp.1
      (archiveDecode m (nodeResolve m cwd ((hp.2 :: paths).map (archiveEncode m))))
  else
    return archiveDecode m (nodeResolve m cwd ((uri :: paths).map (archiveEncode m)))

/-- Source `_matchTrailingArchive(uri, other)`. -/
def matchTrailingArchive (uri other : List Char) : List Char :=
  if uri.length < other.length ∧ uri.isPrefixOf other ∧
      isArchiveSeparator other (uri.length : Int) then
    uri ++ [archiveSep]
  else uri

/-- Source `relative(uri, other)`. -/
def relative (cwd : List Char) (uri other : List Char) :
    Except UriErr (List Char) := do
  testForIllegalUri uri
  let m ← pathModuleFor uri
  let remote := isRemote uri
  if remote ≠ isRemote other then throw .crossHost
  else do
    if remote then do
      let hu ← getHostname uri
      let ho ← getHostname other
      if hu ≠ ho then throw .crossHost
    let pu ← if remote then getPath uri else pure uri
    let po ← if remote then getPath other else pure other
    let uriEncode := archiveEncode m pu
    let otherEncode := archiveEncode m po
    return archiveDecode m
      (nodeRelative m cwd (matchTrailingArchive uriEncode otherEncode)
        (matchTrailingArchive otherEncode uriEncode))

/-- Source `endsWithSeparator(uri)`. -/
def endsWithSeparator (uri : List Char) : Except UriErr Bool := do
  testForIllegalUri uri
  let m ← pathModuleFor uri
  return uri.getLast? = some (sepOf m)

/-- Source `ensureTrailingSeparator(uri)`. -/
def ensureTrailingSeparator (uri : List Char) : Except UriErr (List Char) := do
  testForIllegalUri uri
  let m ← pathModuleFor uri
  if uri.getLast? = some (sepOf m) then return uri
  else return uri ++ [sepOf m]

/-- Source `isAbsolute(uri)`. -/
def isAbsolute (uri : List Char) : Except UriErr Bool := do
  testForIllegalUri uri
  if isRemote uri then return true
  else do
    let m ← pathModuleFor uri
    return nodeIsAbsolute m uri

/-- Source `contains(parent, child)`. -/
def contains (parent child : List Char) : Except UriErr Bool := do
  testForIllegalUri parent
  testForIllegalUri child
  if child.length < parent.length then
    if child.length < parent.length - 1 then return false
    else do
      let ews ← endsWithSeparator parent
      return child.isPrefixOf parent &&
        (ews || isArchiveSeparator child (parent.length : Int))
  else if ¬ parent.isPrefixOf child then return false
  else do
    let ews ← endsWithSeparator parent
    if ews ∨ parent.length = child.length then return true
    else do
      let m ← pathModuleFor child
      return isArchiveSeparator child (parent.length : Int) ||
        (child.drop parent.length).head? = some (sepOf m)

/-- The home-directory environment read by `expandHomeDir`
(`process.env.HOME` and `process.env.UserProfile`). -/
structure HomeEnv where
  home : Option (List Char)
  userProfile : Option (List Char)
deriving DecidableEq, Repr

/-- The value of `os.platform()`, reduced to the only distinction the
source makes. -/
inductive Platform
  | win32
  | other
deriving DecidableEq, Repr

/-- The default `path` module for a platform (the bare
`pathModule` binding of the source). -/
def platformDialect : Platform → Dialect
  | .win32 => .win32
  | .other => .posix

/-- The `homePath` selection of `expandHomeDir`: `UserProfile` on a
Windows platform for a non-remote value, else `HOME`. -/
def selectedHome (env : HomeEnv) (platform : Platform) (uri : List Char) :
    Option (List Char) :=
  if ¬ isRemote uri ∧ platform = .win32 then env.userProfile else env.home

/-- Source `expandHomeDir(uri)`, with the environment, the platform and
the working directory as explicit parameters. -/
def expandHomeDir (env : HomeEnv) (platform : Platform) (cwd : List Char)
    (uri : List Char) : Except UriErr (List Char) := do
  testForIllegalUri uri
  if ¬ ['~'].isPrefixOf uri then return uri
  else do
    let isWindows := ¬ isRemote uri ∧ platform = .win32
    let homePath := selectedHome env platform uri
    match homePath with
    | none => throw .missingHome
    | some home =>
      if uri = ['~'] then return home
      else if ¬ ['~', '/'].isPrefixOf uri ∧
          (¬ isWindows ∨ ¬ ['~', '\\'].isPrefixOf uri) then
        return uri
      else
        return nodeResolve (platformDialect platform) cwd
          [home, replaceFirst uri ['~'] ['.']]

/-- Source `splitPathList(paths)`. -/
def splitPathList (paths : List Char) : Except UriErr (List (List Char)) :=
  if remoteUriToken <:+: paths then .error .remoteInSplitPathList
  else do
    let m ← pathModuleFor paths
    return paths.splitOn (delimOf m)

/-- Source `joinPathList(paths)`. -/
def joinPathList (paths : List (List Char)) : Except UriErr (List Char) :=
  match paths with
  | [] => .ok []
  | p :: _ =>
    if paths.all (fun q => !isRemote q) then do
      let m ← pathModuleFor p
      return List.intercalate [delimOf m] paths
    else .error .remoteInJoinPathList

instance {e a : Type} [DecidableEq e] [DecidableEq a] : DecidableEq (Except e a)
  | .error x, .error y =>
    if h : x = y then .isTrue (by rw [h]) else .isFalse (by simp [h])
  | .error _, .ok _ => .isFalse (by simp)
  | .ok _, .error _ => .isFalse (by simp)
  | .ok x, .ok y =>
    if h : x = y then .isTrue (by rw [h]) else .isFalse (by simp [h])

/-! ## Claim C3: the archive encoder and repeated occurrences -/

/-- C3: the claim states that `_archiveEncode` inserts the dialect
separator after the archive separator at EVERY occurrence of
`<archive-ext><archive-separator>`.  The implementation uses JS
`String.replace` with a string pattern, which rewrites only the first
occurrence per extension: on `"/a.zip!b/c.zip!d"` only the first `.zip!`
receives a separator, contradicting the claim (and the code's own comment
"adds a native separator after every archive separator"). -/
theorem C3_encode_rewrites_only_first_occurrence :
    archiveEncode .posix "/a.zip!b/c.zip!d".toList =
      "/a.zip!/b/c.zip!d".toList ∧
    archiveEncode .posix "/a.zip!b/c.zip!d".toList ≠
      "/a.zip!/b/c.zip!/d".toList ∧
    archiveEncode .posix "/nosep/path".toList = "/nosep/path".toList := by
  refine ⟨by decide, by decide, by decide⟩

/-! ## Claim C4: parse and the end-of-string archive-separator check -/

/-- C4: the claim (following the spec's definition of the archive
separator) says `parse` fails on a value ending in an UNTERMINATED archive
separator, i.e. a trailing `'!'` immediately preceded by a recognized
archive extension.  In `"abc!"` the trailing `'!'` is not preceded by any
recognized extension, yet `parse` throws: `_isArchiveSeparator` computes
`indexOf(ext, -1) === -1` for a length-4 string, which holds exactly when
the extension does not occur at all.  So the code rejects a legal local
path. -/
theorem C4_parse_rejects_bang_without_extension :
    parse "abc!".toList = Except.error UriErr.endsWithArchiveSep ∧
    jarExt.isSuffixOf "abc".toList = false ∧
    zipExt.isSuffixOf "abc".toList = false ∧
    isRemote "abc!".toList = false ∧
    ¬ (schemeMarker <:+: "abc!".toList) := by
  refine ⟨rfl, by decide, by decide, by decide, by decide⟩

/-! ## Claim C7: normalize is not idempotent -/

/-- C7: the claim states `normalize (normalize s) = normalize s` for every
well-formed local or remote `s`.  Because the encoder rewrites only the
first `.zip!` occurrence, normalization of
`"/x.zip!w/../../a.zip!."` pops the encoded first archive segment and
leaves the second occurrence unencoded, so its trailing `"."` segment is
not resolved; a second normalization then resolves it and also trims the
now-trailing archive separator.  `normalize` maps the input to
`"/a.zip!."` but maps `"/a.zip!."` to `"/a.zip"`. -/
theorem C7_normalize_not_idempotent :
    normalize "/x.zip!w/../../a.zip!.".toList =
      Except.ok "/a.zip!.".toList ∧
    normalize "/a.zip!.".toList = Except.ok "/a.zip".toList ∧
    "/a.zip".toList ≠ "/a.zip!.".toList := by
  refine ⟨rfl, rfl, by decide⟩

/-! ## Helper lemmas for the error-handling claims -/

lemma testForIllegalUri_atom {s : List Char} (h : isAtomUri s = true) :
    testForIllegalUri s = .error .atomUri := by
  simp [testForIllegalUri, h]

lemma exists_append_of_isPrefixOf {p s : List Char} (h : p.isPrefixOf s = true) :
    ∃ t, s = p ++ t := by
  have := List.isPrefixOf_iff_prefix.mp h
  exact this.imp fun t ht => ht.symm

lemma atom_not_remote {s : List Char} (h : isAtomUri s = true) :
    isRemote s = false := by
  by_contra hr
  have hr' : remoteUriToken <+: s := by
    have hb : remoteUriToken.isPrefixOf s = true := by simpa [isRemote] using hr
    exact List.isPrefixOf_iff_prefix.mp hb
  have h1 : atomUriToken <+: s := List.isPrefixOf_iff_prefix.mp h
  have e1 : atomUriToken = s.take 7 := List.prefix_iff_eq_take.mp h1
  have e2 : remoteUriToken = s.take 10 := List.prefix_iff_eq_take.mp hr'
  have : atomUriToken = remoteUriToken.take 7 := by
    rw [e2, List.take_take]
    exact e1
  revert this
  decide

lemma atom_has_scheme_marker {s : List Char} (h : isAtomUri s = true) :
    schemeMarker <:+: s := by
  obtain ⟨t, ht⟩ := exists_append_of_isPrefixOf h
  exact ⟨['a', 't', 'o', 'm'], t, by simp [ht, atomUriToken, schemeMarker]⟩

/-! ## Claim C5: behavior of the public operations on editor-internal URIs -/

/-- C5 (amended): every modelled public path operation that validates its
input through `_testForIllegalUri` fails with the IllegalLocation-kind
`atomUri` error on any `atom://`-prefixed string, and `parse` fails with
the IllegalLocation-kind foreign-scheme error; `splitPathList` is the
exception recorded by the counterexample. -/
theorem C5_guarded_ops_reject_atom_uris :
    ∀ s, isAtomUri s = true →
      (∀ args, join s args = .error .atomUri) ∧
      normalize s = .error .atomUri ∧
      dirname s = .error .atomUri ∧
      (∀ cwd args, resolve cwd s args = .error .atomUri) ∧
      (∀ cwd other, relative cwd s other = .error .atomUri) ∧
      (∀ child, contains s child = .error .atomUri) ∧
      endsWithSeparator s = .error .atomUri ∧
      ensureTrailingSeparator s = .error .atomUri ∧
      isAbsolute s = .error .atomUri ∧
      (∀ env platform cwd, expandHomeDir env platform cwd s = .error .atomUri) ∧
      parse s = .error .localHasScheme ∧
      UriErr.atomUri.isIllegalLocation = true ∧
      UriErr.localHasScheme.isIllegalLocation = true := by
  intro s h
  have ht := testForIllegalUri_atom h
  have hnr : remoteUriToken.isPrefixOf s = false := by
    have := atom_not_remote h
    simpa [isRemote] using this
  have hsch := atom_has_scheme_marker h
  refine ⟨?_, ?_, ?_, ?_, ?_, ?_, ?_, ?_, ?_, ?_, ?_, rfl, rfl⟩
  · intro args
    simp [join, ht, Bind.bind, Except.bind]
  · simp [normalize, ht, Bind.bind, Except.bind]
  · simp [dirname, ht, Bind.bind, Except.bind]
  · intro cwd args
    simp [resolve, ht, Bind.bind, Except.bind]
  · intro cwd other
    simp [relative, ht, Bind.bind, Except.bind]
  · intro child
    simp [contains, ht, Bind.bind, Except.bind]
  · simp [endsWithSeparator, ht, Bind.bind, Except.bind]
  · simp [ensureTrailingSeparator, ht, Bind.bind, Except.bind]
  · simp [isAbsolute, ht, Bind.bind, Except.bind]
  · intro env platform cwd
    simp [expandHomeDir, ht, Bind.bind, Except.bind]
  · simp [parse, hnr, hsch]

/-- C5 witness: the amended theorem applied at the concrete internal URI
`"atom://foo"`. -/
theorem C5_witness :
    isAtomUri "atom://foo".toList = true ∧
    normalize "atom://foo".toList = .error .atomUri := by
  refine ⟨by decide, (C5_guarded_ops_reject_atom_uris _ (by decide)).2.1⟩

/-- C5 counterexample: `splitPathList`, a public path operation, returns a
value on the internal URI `"atom://foo"` (it splits it at the colon)
instead of failing, so the claim as stated is false. -/
theorem C5_counterexample_splitPathList :
    isAtomUri "atom://foo".toList = true ∧
    splitPathList "atom://foo".toList =
      Except.ok ["atom".toList, "//foo".toList] := by
  refine ⟨by decide, rfl⟩

/-! ## Claim C9: splitPathList / joinPathList round trip -/

/-- C9 counterexample: three families of inputs covered by the original
claim on which the round trip fails, each matching one exclusion of the
amended theorem.  (1) The empty list: `joinPathList [] = ""` and JS
`"".split(d)` is `[""]`, not `[]`.  (2) Dialect flip: `["C", "\a/b/c"]`
is nonempty, local-only and free of the POSIX delimiter `':'` selected by
its first element, but the joined string `"C:\a/b/c"` matches the Windows
drive-letter rule of `_pathModuleFor`, so `splitPathList` splits on `';'`
and returns a single element.  (3) Remote prefix materializing:
`["nuclide", "//h/p"]` is local-only and delimiter-free, but joins to
`"nuclide://h/p"`, which `splitPathList` rejects outright. -/
theorem C9_counterexample_excluded_inputs :
    ((joinPathList []).bind splitPathList = Except.ok [([] : List Char)] ∧
      ([([] : List Char)] : List (List Char)) ≠ []) ∧
    ((joinPathList [['C'], ['\\', 'a', '/', 'b', '/', 'c']]).bind
        splitPathList
        = Except.ok [['C', ':', '\\', 'a', '/', 'b', '/', 'c']] ∧
      ([['C', ':', '\\', 'a', '/', 'b', '/', 'c']] : List (List Char))
        ≠ [['C'], ['\\', 'a', '/', 'b', '/', 'c']]) ∧
    (joinPathList [['n', 'u', 'c', 'l', 'i', 'd', 'e'],
        ['/', '/', 'h', '/', 'p']]).bind splitPathList
      = Except.error UriErr.remoteInSplitPathList := by
  refine ⟨⟨rfl, by decide⟩, ⟨rfl, by decide⟩, rfl⟩

/-! ## Claim C8: expandHomeDir -/

/-- C8 counterexample: with the home variable unset, `expandHomeDir`
fails on `"~abc"` even though no expansion is requested for it (with the
variable set, `"~abc"` is returned unchanged), because the
`invariant(homePath != null)` runs before the `~abc` early return.  This
falsifies the claim's "fails only when ... an expansion was actually
requested". -/
theorem C8_counterexample_missing_home_tilde_abc :
    expandHomeDir ⟨none, none⟩ .other "/".toList "~abc".toList =
      Except.error UriErr.missingHome ∧
    expandHomeDir ⟨some "/home/u".toList, none⟩ .other "/".toList
      "~abc".toList = Except.ok "~abc".toList := by
  refine ⟨rfl, rfl⟩

/-! ## Claim C2: contains -/

/-- C2 counterexample: the claim asserts `contains(p, join(p, "x"))` for
every well-formed `p`, but `join` normalizes: for `p = "/a/.."` we get
`join(p, "x") = "/x"`, which `contains(p, ·)` rejects. -/
theorem C2_counterexample_join_not_descendant :
    join "/a/..".toList ["x".toList] = Except.ok "/x".toList ∧
    contains "/a/..".toList "/x".toList = Except.ok false := by
  refine ⟨rfl, rfl⟩

lemma testForIllegalUri_ok_iff {s : List Char} :
    testForIllegalUri s = .ok () ↔
      isAtomUri s = false ∧ endsWithArchiveSeparator s = false := by
  unfold testForIllegalUri
  constructor
  · intro h
    by_cases h1 : isAtomUri s = true
    · simp [h1] at h
    · by_cases h2 : endsWithArchiveSeparator s = true
      · simp [h1, h2] at h
      · exact ⟨by simpa using h1, by simpa using h2⟩
  · rintro ⟨h1, h2⟩
    simp [h1, h2]

/-! ## Claim C6: relative and cross-host failures -/

/-- C6: for well-formed location values (no illegal first argument, parse
succeeds on whichever of the two is remote), `relative` fails with the
cross-host error exactly when the two values are of different
remote/local kinds, or both are remote with differing hostnames. -/
theorem C6_relative_cross_host_iff (cwd a b : List Char)
    (ha : testForIllegalUri a = .ok ())
    (hpa : isRemote a = true → ∃ hst p, parse a = .ok ⟨some hst, p⟩)
    (hpb : isRemote b = true → ∃ hst p, parse b = .ok ⟨some hst, p⟩) :
    (relative cwd a b = .error .crossHost ↔
      (isRemote a ≠ isRemote b ∨
        (isRemote a = true ∧ isRemote b = true ∧
          getHostname a ≠ getHostname b))) := by
  have hm : pathModuleFor a = .ok (pathModuleForCore a) := by
    have := (testForIllegalUri_ok_iff.mp ha).2
    simp [pathModuleFor, this]
  by_cases hra : isRemote a = true
  · by_cases hrb : isRemote b = true
    · obtain ⟨h1, p1, hp1⟩ := hpa hra
      obtain ⟨h2, p2, hp2⟩ := hpb hrb
      have hg1 : getHostname a = .ok h1 := by
        simp [getHostname, parseRemoteUri, hra, hp1, Except.map]
      have hg2 : getHostname b = .ok h2 := by
        simp [getHostname, parseRemoteUri, hrb, hp2, Except.map]
      have hq1 : getPath a = .ok p1 := by simp [getPath, hp1, Except.map]
      have hq2 : getPath b = .ok p2 := by simp [getPath, hp2, Except.map]
      by_cases hne : h1 = h2
      · subst hne
        simp [relative, ha, hm, hra, hrb, hg1, hg2, hq1, hq2,
          Bind.bind, Except.bind, pure, Except.pure, throw, throwThe,
          MonadExceptOf.throw]
      · simp [relative, ha, hm, hra, hrb, hg1, hg2, hne,
          Bind.bind, Except.bind, pure, Except.pure, throw, throwThe,
          MonadExceptOf.throw]
    · have hrb' : isRemote b = false := by simpa using hrb
      simp [relative, ha, hm, hra, hrb', Bind.bind, Except.bind,
        pure, Except.pure, throw, throwThe, MonadExceptOf.throw]
  · have hra' : isRemote a = false := by simpa using hra
    by_cases hrb : isRemote b = true
    · simp [relative, ha, hm, hra', hrb, Bind.bind, Except.bind,
        pure, Except.pure, throw, throwThe, MonadExceptOf.throw]
    · have hrb' : isRemote b = false := by simpa using hrb
      simp [relative, ha, hm, hra', hrb', Bind.bind, Except.bind,
        pure, Except.pure, throw, throwThe, MonadExceptOf.throw]

/-- C6 witness: the theorem applied to one remote and one local value,
where `relative` must fail with the cross-host error. -/
theorem C6_witness :
    relative "/".toList "nuclide://h/a".toList "/b".toList =
      .error .crossHost := by
  refine (C6_relative_cross_host_iff _ _ _ (by decide) ?_ ?_).mpr ?_
  · intro _
    exact ⟨"h".toList, "/a".toList, by decide⟩
  · intro hb
    exact absurd hb (by decide)
  · left
    decide

/-! ## Claim C8 (amended): expandHomeDir characterization -/

/-- C8 (amended): `expandHomeDir` returns non-tilde strings unchanged;
for any string starting with `'~'` it fails when the selected home
variable is unset — including strings like `"~abc"` for which no
expansion would be performed; with the variable set, `"~"` maps to the
home path, tilde strings not followed by a separator are returned
unchanged, and strings starting with `"~/"` (or, on Windows for local
values, `"~\"`) are expanded by resolving the home path against the
argument with its tilde replaced by `'.'`. -/
theorem C8_expandHomeDir_characterization
    (env : HomeEnv) (platform : Platform) (cwd uri : List Char)
    (hok : testForIllegalUri uri = .ok ()) :
    ((¬ (['~'].isPrefixOf uri = true)) →
        expandHomeDir env platform cwd uri = .ok uri) ∧
    (['~'].isPrefixOf uri = true →
      selectedHome env platform uri = none →
        expandHomeDir env platform cwd uri = .error .missingHome) ∧
    (∀ home, uri = ['~'] → selectedHome env platform uri = some home →
        expandHomeDir env platform cwd uri = .ok home) ∧
    (∀ home, ['~'].isPrefixOf uri = true → uri ≠ ['~'] →
      ¬ (['~', '/'].isPrefixOf uri = true) →
      (¬ (¬ isRemote uri ∧ platform = .win32) ∨
        ¬ (['~', '\\'].isPrefixOf uri = true)) →
      selectedHome env platform uri = some home →
        expandHomeDir env platform cwd uri = .ok uri) ∧
    (∀ home, ['~', '/'].isPrefixOf uri = true →
      selectedHome env platform uri = some home →
        expandHomeDir env platform cwd uri =
          .ok (nodeResolve (platformDialect platform) cwd
            [home, '.' :: uri.drop 1])) ∧
    (∀ home, platform = .win32 → isRemote uri = false →
      ['~', '\\'].isPrefixOf uri = true →
      selectedHome env platform uri = some home →
        expandHomeDir env platform cwd uri =
          .ok (nodeResolve (platformDialect platform) cwd
            [home, '.' :: uri.drop 1])) := by
  refine ⟨?_, ?_, ?_, ?_, ?_, ?_⟩
  · intro h
    simp [expandHomeDir, hok, h, Bind.bind, Except.bind, pure, Except.pure]
  · intro h1 h2
    simp [expandHomeDir, hok, h1, h2, Bind.bind, Except.bind, pure,
      Except.pure, throw, throwThe, MonadExceptOf.throw]
  · intro home h1 h2
    subst h1
    simp [expandHomeDir, hok, h2, Bind.bind, Except.bind, pure, Except.pure]
  · intro home h1 h2 h3 h4 h5
    simp only [expandHomeDir, hok, h1, h5, Bind.bind, Except.bind]
    simp [h1, h2, h3, pure, Except.pure]
    intro hrr hpw hbs
    rcases h4 with h4 | h4
    · exact absurd ⟨by simp [hrr], hpw⟩ h4
    · exact absurd (List.isPrefixOf_iff_prefix.mpr hbs) h4
  · intro home h1 h2
    obtain ⟨t, ht⟩ := exists_append_of_isPrefixOf h1
    have h0 : ['~'].isPrefixOf uri = true := by
      rw [ht]
      rfl
    have hne1 : uri ≠ ['~'] := by
      rw [ht]
      simp
    have hrepl : replaceFirst uri ['~'] ['.'] = '.' :: uri.drop 1 := by
      rw [ht]
      rfl
    simp [expandHomeDir, hok, h0, h2, hne1, h1, hrepl, Bind.bind,
      Except.bind, pure, Except.pure]
  · intro home hwin hrnot h1 h2
    subst hwin
    obtain ⟨t, ht⟩ := exists_append_of_isPrefixOf h1
    have h0 : ['~'].isPrefixOf uri = true := by
      rw [ht]
      rfl
    have hne1 : uri ≠ ['~'] := by
      rw [ht]
      simp
    have hrepl : replaceFirst uri ['~'] ['.'] = '.' :: uri.drop 1 := by
      rw [ht]
      rfl
    simp [expandHomeDir, hok, h0, h2, hne1, h1, hrnot, hrepl,
      Bind.bind, Except.bind, pure, Except.pure]

/-- C8 witness: the amended theorem applied at `"~abc"` (returned
unchanged) and at `"~/x"` (expanded through the home path), both with the
home variable set. -/
theorem C8_witness :
    expandHomeDir ⟨some "/home/u".toList, none⟩ .other "/".toList
      "~abc".toList = .ok "~abc".toList ∧
    expandHomeDir ⟨some "/home/u".toList, none⟩ .other "/".toList
      "~/x".toList = .ok "/home/u/x".toList := by
  constructor
  · refine (C8_expandHomeDir_characterization _ _ _ _ (by decide)).2.2.2.1
      "/home/u".toList (by decide) (by decide) (by decide) ?_ (by decide)
    right
    decide
  · have h := (C8_expandHomeDir_characterization
      ⟨some "/home/u".toList, none⟩ .other "/".toList "~/x".toList
      (by decide)).2.2.2.2.1 "/home/u".toList (by decide) (by decide)
    rw [h]
    rfl

/-! ## Claim C9 (amended): splitPathList / joinPathList round trip -/

/-- C9 (amended): for a nonempty list of local paths that contain no
occurrence of the selected dialect's delimiter, where the joined string
selects the same dialect as the first element and does not contain the
remote prefix, `splitPathList` inverts `joinPathList`.  The empty list is
excluded: `joinPathList [] = ""` and JS `"".split(d) = [""]`. -/
theorem C9_split_join_round_trip (x : List Char) (xs : List (List Char))
    (d : Dialect)
    (hd : pathModuleFor x = .ok d)
    (hlocal : ∀ y ∈ x :: xs, isRemote y = false)
    (hdelim : ∀ y ∈ x :: xs, delimOf d ∉ y)
    (hjd : pathModuleFor (List.intercalate [delimOf d] (x :: xs)) = .ok d)
    (hnr : ¬ remoteUriToken <:+: List.intercalate [delimOf d] (x :: xs)) :
    joinPathList (x :: xs) = .ok (List.intercalate [delimOf d] (x :: xs)) ∧
    splitPathList (List.intercalate [delimOf d] (x :: xs)) =
      .ok (x :: xs) := by
  constructor
  · have hall : (x :: xs).all (fun q => !isRemote q) = true := by
      rw [List.all_eq_true]
      intro y hy
      simp [hlocal y hy]
    simp [joinPathList, hall, hd, Bind.bind, Except.bind, pure, Except.pure]
  · have hsplit : (List.intercalate [delimOf d] (x :: xs)).splitOn (delimOf d) =
        x :: xs :=
      List.splitOn_intercalate (x :: xs) (delimOf d) hdelim (by simp)
    simp [splitPathList, hnr, hjd, hsplit, Bind.bind, Except.bind, pure, Except.pure]

lemma isArchiveSeparator_oob {l : List Char} {index : Int}
    (h : (l.length : Int) ≤ index) : isArchiveSeparator l index = false := by
  simp [isArchiveSeparator]
  intro hlt
  omega

lemma endsWithSeparator_ok {p : List Char}
    (h : testForIllegalUri p = .ok ()) :
    endsWithSeparator p =
      .ok (decide (p.getLast? = some (sepOf (pathModuleForCore p)))) := by
  obtain ⟨_, h2⟩ := testForIllegalUri_ok_iff.mp h
  simp [endsWithSeparator, h, pathModuleFor, h2, Bind.bind, Except.bind,
    pure, Except.pure]

/-- C2 (amended): the enumerated behavior of `contains`:
reflexivity for legal values; a length deficit of more than one character
is rejected; with a deficit of exactly one character containment holds
exactly when the parent is the child extended with its dialect's
separator; the two concrete examples of the claim; for a longer child,
containment holds exactly when the parent is a prefix and is followed (in
the child) by the dialect separator, by the implementation's
archive-separator test, or the parent ends with its separator; and the
direct descendant `p ++ sep ++ x` is contained in `p` whenever the
extended string selects the same dialect.  (The claim's
`contains(p, join(p, "x"))` instance is false in general because `join`
normalizes; see the counterexample.) -/
theorem C2_contains_characterization :
    (∀ p, testForIllegalUri p = .ok () → contains p p = .ok true) ∧
    (∀ p c, testForIllegalUri p = .ok () → testForIllegalUri c = .ok () →
      c.length + 1 < p.length → contains p c = .ok false) ∧
    (∀ p c, testForIllegalUri p = .ok () → testForIllegalUri c = .ok () →
      p.length = c.length + 1 →
      (contains p c = .ok true ↔
        p = c ++ [sepOf (pathModuleForCore p)])) ∧
    contains "/www".toList "/www-base".toList = .ok false ∧
    contains "/www/".toList "/www".toList = .ok true ∧
    (∀ p c, testForIllegalUri p = .ok () → testForIllegalUri c = .ok () →
      p.length < c.length →
      (contains p c = .ok true ↔
        p.isPrefixOf c = true ∧
          (p.getLast? = some (sepOf (pathModuleForCore p)) ∨
            isArchiveSeparator c (p.length : Int) = true ∨
            (c.drop p.length).head? = some (sepOf (pathModuleForCore c))))) ∧
    (∀ p x, testForIllegalUri p = .ok () →
      testForIllegalUri (p ++ sepOf (pathModuleForCore p) :: x) = .ok () →
      pathModuleForCore (p ++ sepOf (pathModuleForCore p) :: x) =
        pathModuleForCore p →
      contains p (p ++ sepOf (pathModuleForCore p) :: x) = .ok true) := by
  refine ⟨?_, ?_, ?_, rfl, rfl, ?_, ?_⟩
  · intro p hp
    simp [contains, hp, endsWithSeparator_ok hp, Bind.bind, Except.bind,
      pure, Except.pure, List.isPrefixOf_iff_prefix]
  · intro p c hp hc hlt
    have h1 : c.length < p.length := by omega
    have h2 : c.length < p.length - 1 := by omega
    simp [contains, hp, hc, h1, h2, Bind.bind, Except.bind, pure, Except.pure]
  · intro p c hp hc hlen
    have h1 : c.length < p.length := by omega
    have h2 : ¬ c.length < p.length - 1 := by omega
    have hoob : isArchiveSeparator c (p.length : Int) = false := by
      refine isArchiveSeparator_oob ?_
      simp
      omega
    simp only [contains, hp, hc, endsWithSeparator_ok hp, Bind.bind,
      Except.bind, pure, Except.pure, if_pos h1, if_neg h2, hoob]
    simp only [Bool.or_false]
    constructor
    · intro h
      simp only [Except.ok.injEq, Bool.and_eq_true, decide_eq_true_eq] at h
      obtain ⟨hpre, hlast⟩ := h
      obtain ⟨t, ht⟩ := exists_append_of_isPrefixOf hpre
      have htl : t.length = 1 := by
        have := congrArg List.length ht
        simp at this
        omega
      obtain ⟨a, rfl⟩ : ∃ a, t = [a] := by
        match t, htl with
        | [a], _ => exact ⟨a, rfl⟩
      have hga : p.getLast? = some a := by
        rw [ht]
        simp
      have ha : a = sepOf (pathModuleForCore p) := by
        rw [hga] at hlast
        exact Option.some.inj hlast
      conv_lhs => rw [ht]
      rw [ha]
    · intro h
      have hpre : c.isPrefixOf p = true :=
        List.isPrefixOf_iff_prefix.mpr ⟨[sepOf (pathModuleForCore p)], h.symm⟩
      have hlast : p.getLast? = some (sepOf (pathModuleForCore p)) := by
        conv_lhs => rw [h]
        simp
      simp [hpre, hlast]
  · intro p c hp hc hlt
    have h1 : ¬ c.length < p.length := by omega
    by_cases hpre : p.isPrefixOf c = true
    · have hne : ¬ p.length = c.length := by omega
      by_cases hews : p.getLast? = some (sepOf (pathModuleForCore p))
      · simp [contains, hp, hc, endsWithSeparator_ok hp, h1, hpre, hne,
          hews, Bind.bind, Except.bind, pure, Except.pure,
          testForIllegalUri_ok_iff.mp hc, pathModuleFor]
      · simp [contains, hp, hc, endsWithSeparator_ok hp, h1, hpre, hne,
          hews, Bind.bind, Except.bind, pure, Except.pure,
          (testForIllegalUri_ok_iff.mp hc).2, pathModuleFor]
    · simp [contains, hp, hc, h1, hpre, Bind.bind, Except.bind, pure,
        Except.pure]
  · intro p x hp hcld hsame
    have h1 : ¬ (p ++ sepOf (pathModuleForCore p) :: x).length < p.length := by
      simp
    have hpre : p.isPrefixOf (p ++ sepOf (pathModuleForCore p) :: x) = true :=
      List.isPrefixOf_iff_prefix.mpr ⟨sepOf (pathModuleForCore p) :: x, rfl⟩
    have hlen : ¬ p.length = (p ++ sepOf (pathModuleForCore p) :: x).length := by
      simp
    by_cases hews : p.getLast? = some (sepOf (pathModuleForCore p))
    · simp [contains, hp, hcld, endsWithSeparator_ok hp, h1, hpre, hlen,
        hews, Bind.bind, Except.bind, pure, Except.pure]
    · simp [contains, hp, hcld, endsWithSeparator_ok hp, h1, hpre, hlen,
        hews, Bind.bind, Except.bind, pure, Except.pure,
        (testForIllegalUri_ok_iff.mp hcld).2, pathModuleFor, hsame]

/-- C2 witness: the reflexivity conjunct of the amended theorem at the
concrete value `"/a"`. -/
theorem C2_witness : contains "/a".toList "/a".toList = .ok true :=
  C2_contains_characterization.1 "/a".toList (by decide)

/-- C9 witness: the amended theorem applied to the list `["/a", "/b"]`. -/
theorem C9_witness :
    joinPathList ["/a".toList, "/b".toList] = .ok "/a:/b".toList ∧
    splitPathList "/a:/b".toList = .ok ["/a".toList, "/b".toList] := by
  have h := C9_split_join_round_trip "/a".toList ["/b".toList] .posix
    (by decide) (by decide) (by decide) (by decide) (by decide)
  exact ⟨by simpa using h.1, by simpa using h.2⟩

/-! ## Occurrence toolkit for the archive-codec round trip -/

lemma replaceFirst_of_isPrefixOf {s pat rep : List Char}
    (h : pat.isPrefixOf s = true) :
    replaceFirst s pat rep = rep ++ s.drop pat.length := by
  cases s with
  | nil =>
    have : pat = [] := by
      have := List.isPrefixOf_iff_prefix.mp h
      simpa using this
    simp [replaceFirst, this]
  | cons c cs => simp [replaceFirst, h]

lemma replaceFirst_cons_neg {c : Char} {cs pat rep : List Char}
    (h : pat.isPrefixOf (c :: cs) = false) :
    replaceFirst (c :: cs) pat rep = c :: replaceFirst cs pat rep := by
  simp [replaceFirst, h]

lemma replaceFirst_no_occ {s pat rep : List Char} (h : ¬ pat <:+: s) :
    replaceFirst s pat rep = s := by
  induction s with
  | nil =>
    have hp : pat.isPrefixOf ([] : List Char) = false := by
      by_contra hb
      have hb' : pat <+: ([] : List Char) :=
        List.isPrefixOf_iff_prefix.mp (by simpa using hb)
      exact h hb'.isInfix
    simp [replaceFirst, hp]
  | cons c cs ih =>
    have hcons := h
    rw [List.infix_cons_iff] at hcons
    push_neg at hcons
    have hp : pat.isPrefixOf (c :: cs) = false := by
      by_contra hb
      exact hcons.1 (List.isPrefixOf_iff_prefix.mp (by simpa using hb))
    rw [replaceFirst_cons_neg hp, ih hcons.2]

lemma replaceFirst_first_occ :
    ∀ (a : List Char) {b pat rep : List Char},
      (∀ a' b', a' ++ pat ++ b' = a ++ pat ++ b → a.length ≤ a'.length) →
      replaceFirst (a ++ pat ++ b) pat rep = a ++ rep ++ b := by
  intro a
  induction a with
  | nil =>
    intro b pat rep _
    have hp : pat.isPrefixOf (pat ++ b) = true :=
      List.isPrefixOf_iff_prefix.mpr (List.prefix_append pat b)
    simp only [List.nil_append]
    rw [replaceFirst_of_isPrefixOf hp, List.drop_left]
  | cons c a' ih =>
    intro b pat rep hmin
    have hp : pat.isPrefixOf (c :: (a' ++ pat ++ b)) = false := by
      by_contra hb
      have hb' : pat <+: c :: (a' ++ pat ++ b) :=
        List.isPrefixOf_iff_prefix.mp (by simpa using hb)
      obtain ⟨t, ht⟩ := hb'
      have := hmin [] t (by simpa using ht)
      simp at this
    have hmin' : ∀ a₁ b₁, a₁ ++ pat ++ b₁ = a' ++ pat ++ b →
        a'.length ≤ a₁.length := by
      intro a₁ b₁ h₁
      have := hmin (c :: a₁) b₁ (by simp [h₁])
      simpa using this
    calc replaceFirst ((c :: a') ++ pat ++ b) pat rep
        = replaceFirst (c :: (a' ++ pat ++ b)) pat rep := by simp
      _ = c :: replaceFirst (a' ++ pat ++ b) pat rep :=
          replaceFirst_cons_neg hp
      _ = c :: (a' ++ rep ++ b) := by rw [ih hmin']
      _ = (c :: a') ++ rep ++ b := by simp

lemma occ_through_insert {u v a' b' pat : List Char} {x : Char}
    (heq : u ++ [x] ++ v = a' ++ pat ++ b') (hx : x ∉ pat) (hpat : pat ≠ []) :
    (∃ b'', u ++ v = a' ++ pat ++ b'' ∧ a'.length + pat.length ≤ u.length) ∨
    (∃ a'' b'', u ++ v = a'' ++ pat ++ b'' ∧ a''.length + 1 = a'.length ∧
      u.length < a'.length) := by
  have heq' : u ++ ([x] ++ v) = a' ++ (pat ++ b') := by
    simpa [List.append_assoc] using heq
  rcases List.append_eq_append_iff.mp heq' with ⟨w, hw1, hw2⟩ | ⟨w, hw1, hw2⟩
  · -- a' = u ++ w, [x] ++ v = w ++ (pat ++ b')
    cases w with
    | nil =>
      simp at hw2
      cases pat with
      | nil => exact absurd rfl hpat
      | cons p0 pr =>
        have : x = p0 := by
          have := hw2
          rw [List.cons_append] at this
          exact (List.cons.injEq _ _ _ _ ▸ this).1
        exact absurd (this ▸ List.mem_cons_self p0 pr) hx
    | cons y w' =>
      have hy : y = x ∧ v = w' ++ (pat ++ b') := by
        have := hw2
        simp at this
        exact ⟨this.1.symm, this.2⟩
      right
      refine ⟨u ++ w', b', ?_, ?_, ?_⟩
      · rw [hy.2]
        simp [List.append_assoc]
      · simp [hw1]
        omega
      · simp [hw1]
  · -- u = a' ++ w, pat ++ b' = w ++ ([x] ++ v)
    rcases List.append_eq_append_iff.mp hw2 with ⟨q, hq1, hq2⟩ | ⟨q, hq1, hq2⟩
    · -- w = pat ++ q, b' = q ++ ([x] ++ v)
      left
      refine ⟨q ++ v, ?_, ?_⟩
      · rw [hw1, hq1]
        simp [List.append_assoc]
      · rw [hw1, hq1]
        try simp
    · -- pat = w ++ q, [x] ++ v = q ++ b'
      cases q with
      | nil =>
        left
        have hwp : w = pat := by simp [hq1]
        refine ⟨v, ?_, ?_⟩
        · rw [hw1, hwp]
          try simp [List.append_assoc]
        · rw [hw1, hwp]
          try simp
      | cons y q' =>
        have : y = x := by
          have := hq2
          simp at this
          exact this.1.symm
        refine absurd ?_ hx
        rw [hq1, this]
        simp

lemma occ_in_left {u v a' b' pat : List Char}
    (heq : u ++ v = a' ++ pat ++ b') (hpat : pat ≠ [])
    (hle : a'.length + pat.length ≤ u.length) :
    ∃ q, u = a' ++ pat ++ q ∧ b' = q ++ v := by
  have heq' : u ++ v = a' ++ (pat ++ b') := by
    simpa [List.append_assoc] using heq
  rcases List.append_eq_append_iff.mp heq' with ⟨w, hw1, hw2⟩ | ⟨w, hw1, hw2⟩
  · -- a' = u ++ w: impossible by lengths
    exfalso
    have hl := congrArg List.length hw1
    simp at hl
    have : pat.length = 0 ∧ w.length = 0 := by omega
    exact absurd (List.length_eq_zero.mp this.1) hpat
  · -- u = a' ++ w, pat ++ b' = w ++ v
    have hwlen : pat.length ≤ w.length := by
      have hl := congrArg List.length hw1
      simp at hl
      omega
    rcases List.append_eq_append_iff.mp hw2 with ⟨q, hq1, hq2⟩ | ⟨q, hq1, hq2⟩
    · -- w = pat ++ q
      exact ⟨q, by rw [hw1, hq1]; simp [List.append_assoc], hq2⟩
    · -- pat = w ++ q, v = q ++ b'
      have : q = [] := by
        have hl := congrArg List.length hq1
        simp at hl
        have : q.length = 0 := by omega
        exact List.length_eq_zero.mp this
      subst this
      have hwp : pat = w := by simpa using hq1
      refine ⟨[], ?_, ?_⟩
      · rw [hw1, hwp]
        try simp
      · have hbv := hw2
        rw [← hwp] at hbv
        simp at hbv
        simp [hbv]

lemma occ_in_right {u v a' b' pat : List Char}
    (heq : u ++ v = a' ++ pat ++ b') (hge : u.length ≤ a'.length) :
    ∃ q, a' = u ++ q ∧ v = q ++ pat ++ b' := by
  have heq' : u ++ v = a' ++ (pat ++ b') := by
    simpa [List.append_assoc] using heq
  rcases List.append_eq_append_iff.mp heq' with ⟨w, hw1, hw2⟩ | ⟨w, hw1, hw2⟩
  · exact ⟨w, hw1, by rw [hw2]; simp [List.append_assoc]⟩
  · have : w = [] := by
      have hl := congrArg List.length hw1
      simp at hl
      have : w.length = 0 := by omega
      exact List.length_eq_zero.mp this
    subst this
    refine ⟨[], by simpa using hw1.symm, ?_⟩
    simp at hw2
    simpa [List.append_assoc] using hw2.symm

lemma exists_min_occ {pat s : List Char} (h : pat <:+: s) :
    ∃ a b, s = a ++ pat ++ b ∧
      ∀ a' b', s = a' ++ pat ++ b' → a.length ≤ a'.length := by
  classical
  have hex : ∃ n, ∃ a b, a.length = n ∧ s = a ++ pat ++ b := by
    obtain ⟨a, b, hab⟩ := h
    exact ⟨a.length, a, b, rfl, hab.symm⟩
  obtain ⟨a, b, hlen, heq⟩ := Nat.find_spec hex
  refine ⟨a, b, heq, ?_⟩
  intro a' b' heq'
  have hP : ∃ a₁ b₁, a₁.length = a'.length ∧ s = a₁ ++ pat ++ b₁ :=
    ⟨a', b', rfl, heq'⟩
  have := Nat.find_min' hex hP
  omega

lemma overlap_forces_far {p q : List Char}
    (hlen : p.length = q.length)
    (hpq : ∀ t ∈ p.tails, t.isPrefixOf q = true → t = [])
    (hqp : ∀ t ∈ q.tails, t.isPrefixOf p = true → t = [])
    (hne : p ≠ q) :
    ∀ {a b a' b' : List Char}, a ++ p ++ b = a' ++ q ++ b' →
      a.length + p.length ≤ a'.length ∨ a'.length + q.length ≤ a.length := by
  intro a b a' b' heq
  have heq' : a ++ (p ++ b) = a' ++ (q ++ b') := by
    simpa [List.append_assoc] using heq
  rcases List.append_eq_append_iff.mp heq' with ⟨w, hw1, hw2⟩ | ⟨w, hw1, hw2⟩
  · -- a' = a ++ w, p ++ b = w ++ (q ++ b')
    have hw1l := congrArg List.length hw1
    simp at hw1l
    rcases List.append_eq_append_iff.mp hw2 with ⟨t, ht1, ht2⟩ | ⟨t, ht1, ht2⟩
    · -- w = p ++ t
      left
      have := congrArg List.length ht1
      simp at this
      omega
    · -- p = w ++ t, q ++ b' = t ++ b : t is a suffix of p
      have ht1l := congrArg List.length ht1
      simp at ht1l
      rcases List.append_eq_append_iff.mp ht2 with ⟨r, hr1, hr2⟩ | ⟨r, hr1, hr2⟩
      · -- t = q ++ r : q sits inside p; equal lengths force w = r = []
        have hr1l := congrArg List.length hr1
        simp at hr1l
        have hw0 : w = [] := List.length_eq_zero.mp (by omega)
        have hr0 : r = [] := List.length_eq_zero.mp (by omega)
        subst hw0
        subst hr0
        refine absurd ?_ hne
        rw [ht1, hr1]
        simp
      · -- q = t ++ r : t is a prefix of q and a suffix of p, so t = []
        have hmem : t ∈ p.tails := (List.mem_tails t p).mpr ⟨w, ht1.symm⟩
        have hpre : t.isPrefixOf q = true :=
          List.isPrefixOf_iff_prefix.mpr ⟨r, hr1.symm⟩
        have ht0 := hpq t hmem hpre
        subst ht0
        left
        simp only [List.length_nil] at ht1l hw1l
        omega
  · -- a = a' ++ w, q ++ b' = w ++ (p ++ b)
    have hw1l := congrArg List.length hw1
    simp at hw1l
    rcases List.append_eq_append_iff.mp hw2 with ⟨t, ht1, ht2⟩ | ⟨t, ht1, ht2⟩
    · -- w = q ++ t
      right
      have := congrArg List.length ht1
      simp at this
      omega
    · -- q = w ++ t, p ++ b = t ++ b' : t is a suffix of q
      have ht1l := congrArg List.length ht1
      simp at ht1l
      rcases List.append_eq_append_iff.mp ht2 with ⟨r, hr1, hr2⟩ | ⟨r, hr1, hr2⟩
      · -- t = p ++ r : p sits inside q; equal lengths force w = r = []
        have hr1l := congrArg List.length hr1
        simp at hr1l
        have hw0 : w = [] := List.length_eq_zero.mp (by omega)
        have hr0 : r = [] := List.length_eq_zero.mp (by omega)
        subst hw0
        subst hr0
        refine absurd ?_ hne
        rw [ht1, hr1]
        simp
      · -- p = t ++ r : t is a prefix of p and a suffix of q, so t = []
        have hmem : t ∈ q.tails := (List.mem_tails t q).mpr ⟨w, ht1.symm⟩
        have hpre : t.isPrefixOf p = true :=
          List.isPrefixOf_iff_prefix.mpr ⟨r, hr1.symm⟩
        have ht0 := hqp t hmem hpre
        subst ht0
        right
        simp only [List.length_nil] at ht1l hw1l
        omega

lemma jarBang_ne_nil : jarBang ≠ [] := by decide

lemma zipBang_ne_nil : zipBang ≠ [] := by decide

lemma bang_mem_jarBang : archiveSep ∈ jarBang := by decide

lemma bang_mem_zipBang : archiveSep ∈ zipBang := by decide

lemma jar_zip_tails : ∀ t ∈ jarBang.tails, t.isPrefixOf zipBang = true → t = [] := by
  decide

lemma zip_jar_tails : ∀ t ∈ zipBang.tails, t.isPrefixOf jarBang = true → t = [] := by
  decide

lemma jar_ne_zip : jarBang ≠ zipBang := by decide

lemma jarBang_zipBang_length : jarBang.length = zipBang.length := by decide

lemma endsArch_false_of_getLast {s : List Char}
    (h : s.getLast? ≠ some archiveSep) :
    endsWithArchiveSeparator s = false := by
  by_cases hs : s = []
  · subst hs
    decide
  · have hlen : 1 ≤ s.length := List.length_pos.mpr hs
    have hca : charAt s ((s.length : Int) - 1) = s.getLast? := by
      unfold charAt
      rw [if_neg (by omega)]
      have ht : ((s.length : Int) - 1).toNat = s.length - 1 := by omega
      rw [ht, List.getLast?_eq_getElem?, List.get?_eq_getElem?]
    unfold endsWithArchiveSeparator isArchiveSeparator
    rw [hca]
    have : (s.getLast? == some archiveSep) = false := by
      simpa using h
    simp [this]

lemma trim_of_getLast {s : List Char} (h : s.getLast? ≠ some archiveSep) :
    trimArchiveSuffix s = s := by
  simp [trimArchiveSuffix, endsArch_false_of_getLast h]

/-- Unfolding `_archiveEncode` to the two first-occurrence replacements. -/
lemma archiveEncodeWith_def (sep : Char) (s : List Char) :
    archiveEncodeWith sep s =
      if archiveSep ∈ s then
        replaceFirst (replaceFirst s jarBang (jarBang ++ [sep])) zipBang
          (zipBang ++ [sep])
      else s := rfl

/-- Unfolding `_archiveDecode` to the two first-occurrence replacements
followed by the trailing-separator trim. -/
lemma archiveDecodeWith_def (sep : Char) (s : List Char) :
    archiveDecodeWith sep s =
      if archiveSep ∈ s then
        trimArchiveSuffix
          (replaceFirst (replaceFirst s (jarBang ++ [sep]) jarBang)
            (zipBang ++ [sep]) zipBang)
      else s := rfl

lemma wf_ext_of_decomp {s a b : List Char}
    (hwf : archiveSepsWellFormed s = true) (hdec : s = a ++ archiveSep :: b) :
    (∃ a₁, a = a₁ ++ jarExt) ∨ ∃ a₁, a = a₁ ++ zipExt := by
  have hi : a.length < s.length := by
    rw [hdec]
    simp
  have hget : s.get? a.length = some archiveSep := by
    rw [hdec, List.get?_append_right (le_refl _)]
    simp
  have hall := List.all_eq_true.mp hwf a.length (by simpa using hi)
  rw [if_pos hget] at hall
  have hext : extEndsAt s a.length = true := by
    rw [Bool.and_eq_true] at hall
    exact hall.1
  rw [extEndsAt] at hext
  have htake : s.take a.length = a := by
    rw [hdec, List.take_left]
  rw [htake] at hext
  rw [Bool.or_eq_true] at hext
  rcases hext with hj | hz
  · left
    obtain ⟨a₁, ha⟩ := List.isSuffixOf_iff_suffix.mp hj
    exact ⟨a₁, ha.symm⟩
  · right
    obtain ⟨a₁, ha⟩ := List.isSuffixOf_iff_suffix.mp hz
    exact ⟨a₁, ha.symm⟩

lemma wf_has_pattern {s : List Char}
    (hwf : archiveSepsWellFormed s = true) (hmem : archiveSep ∈ s) :
    jarBang <:+: s ∨ zipBang <:+: s := by
  obtain ⟨a, b, hdec⟩ := List.append_of_mem hmem
  rcases wf_ext_of_decomp hwf hdec with ⟨a₁, ha⟩ | ⟨a₁, ha⟩
  · left
    refine ⟨a₁, b, ?_⟩
    rw [hdec, ha]
    simp [jarBang, List.append_assoc]
  · right
    refine ⟨a₁, b, ?_⟩
    rw [hdec, ha]
    simp [zipBang, List.append_assoc]

/-- Replacing `pat ++ [x]` at the position of the minimal occurrence of
`pat` undoes (or redoes) the insertion of `x` after that occurrence. -/
lemma replace_at_insert {s a b pat rep : List Char} {x : Char}
    (heq : s = a ++ pat ++ b)
    (hmin : ∀ a' b', s = a' ++ pat ++ b' → a.length ≤ a'.length)
    (hx : x ∉ pat) (hpat : pat ≠ []) :
    replaceFirst (a ++ (pat ++ [x]) ++ b) (pat ++ [x]) rep = a ++ rep ++ b := by
  apply replaceFirst_first_occ
  intro a' b' h'
  have h'' : a ++ pat ++ [x] ++ b = a' ++ pat ++ ([x] ++ b') := by
    calc a ++ pat ++ [x] ++ b = a ++ (pat ++ [x]) ++ b := by
          simp [List.append_assoc]
      _ = a' ++ (pat ++ [x]) ++ b' := h'.symm
      _ = a' ++ pat ++ ([x] ++ b') := by simp [List.append_assoc]
  rcases occ_through_insert h'' hx hpat with ⟨b'', hoc, _⟩ | ⟨a'', b'', hoc, hl1, _⟩
  · exact hmin a' b'' (heq.trans hoc)
  · have := hmin a'' b'' (heq.trans hoc)
    omega

lemma not_infix_insert {u v pat : List Char} {x : Char}
    (h : ¬ pat <:+: (u ++ v)) (hx : x ∉ pat) (hpat : pat ≠ []) :
    ¬ pat <:+: (u ++ [x] ++ v) := by
  rintro ⟨a', b', h'⟩
  rcases occ_through_insert h'.symm hx hpat with ⟨b'', hoc, _⟩ | ⟨a'', b'', hoc, _, _⟩
  · exact h ⟨a', b'', hoc.symm⟩
  · exact h ⟨a'', b'', hoc.symm⟩

lemma patSep_occ_drop {pat s : List Char} {x : Char}
    (h : (pat ++ [x]) <:+: s) : pat <:+: s :=
  (List.prefix_append pat [x]).isInfix.trans h

/-- The archive codec round trip, with the dialect separator abstracted:
if every archive separator of `s` is preceded by a recognized extension and
`s` does not end with an archive separator, decoding the encoding of `s`
restores `s`. -/
lemma roundtrip_with {sep : Char} (hsj : sep ∉ jarBang) (hsz : sep ∉ zipBang)
    {s : List Char}
    (hwf : archiveSepsWellFormed s = true)
    (hlast : s.getLast? ≠ some archiveSep) :
    archiveDecodeWith sep (archiveEncodeWith sep s) = s := by
  have ej : jarBang.length = 5 := by decide
  have ez : zipBang.length = 5 := by decide
  by_cases hmem : archiveSep ∈ s
  · by_cases hj : jarBang <:+: s
    · by_cases hz : zipBang <:+: s
      · -- Case D: both patterns occur.
        obtain ⟨aj, bj, heqj, hminj⟩ := exists_min_occ hj
        obtain ⟨az, bz, heqz, hminz⟩ := exists_min_occ hz
        have hfar := overlap_forces_far jarBang_zipBang_length jar_zip_tails
          zip_jar_tails jar_ne_zip (heqj.symm.trans heqz)
        have hr1 : replaceFirst s jarBang (jarBang ++ [sep])
            = aj ++ (jarBang ++ [sep]) ++ bj := by
          rw [heqj]
          apply replaceFirst_first_occ
          intro a' b' h'
          exact hminj a' b' (heqj.trans h'.symm)
        rcases hfar with hd1h | hd2h
        · -- Subcase D1: the jar occurrence lies strictly before the zip one.
          obtain ⟨q, haz, hbj⟩ := occ_in_right (heqj.symm.trans heqz)
            (by rw [List.length_append, ej]; omega)
          have hlenaz := congrArg List.length haz
          rw [List.length_append, List.length_append, ej] at hlenaz
          have hr1eq : aj ++ (jarBang ++ [sep]) ++ bj
              = (aj ++ (jarBang ++ [sep]) ++ q) ++ zipBang ++ bz := by
            rw [hbj]
            simp [List.append_assoc]
          have hr2 : replaceFirst (aj ++ (jarBang ++ [sep]) ++ bj) zipBang
              (zipBang ++ [sep])
              = (aj ++ (jarBang ++ [sep]) ++ q) ++ (zipBang ++ [sep]) ++ bz := by
            rw [hr1eq]
            apply replaceFirst_first_occ
            intro a' b' h'
            have h'' : (aj ++ jarBang) ++ [sep] ++ bj = a' ++ zipBang ++ b' := by
              calc (aj ++ jarBang) ++ [sep] ++ bj
                  = aj ++ (jarBang ++ [sep]) ++ bj := by simp [List.append_assoc]
                _ = (aj ++ (jarBang ++ [sep]) ++ q) ++ zipBang ++ bz := hr1eq
                _ = a' ++ zipBang ++ b' := h'.symm
            rcases occ_through_insert h'' hsz zipBang_ne_nil with
              ⟨b'', hoc, hle⟩ | ⟨a'', b'', hoc, ha1, _⟩
            · exfalso
              have h1 := hminz a' b'' (heqj.trans hoc)
              rw [List.length_append, ej, ez] at hle
              omega
            · have h1 := hminz a'' b'' (heqj.trans hoc)
              simp only [List.length_append, List.length_cons,
                List.length_nil, ej]
              omega
          have henc : archiveEncodeWith sep s
              = (aj ++ (jarBang ++ [sep]) ++ q) ++ (zipBang ++ [sep]) ++ bz := by
            rw [archiveEncodeWith_def, if_pos hmem, hr1, hr2]
          have hd1min : ∀ a' b',
              aj ++ jarBang ++ (q ++ (zipBang ++ [sep]) ++ bz)
                = a' ++ jarBang ++ b' → aj.length ≤ a'.length := by
            intro a' b' h'
            have h'' : (aj ++ jarBang ++ q ++ zipBang) ++ [sep] ++ bz
                = a' ++ jarBang ++ b' := by
              calc (aj ++ jarBang ++ q ++ zipBang) ++ [sep] ++ bz
                  = aj ++ jarBang ++ (q ++ (zipBang ++ [sep]) ++ bz) := by
                    simp [List.append_assoc]
                _ = a' ++ jarBang ++ b' := h'
            rcases occ_through_insert h'' hsj jarBang_ne_nil with
              ⟨b'', hoc, _⟩ | ⟨a'', b'', hoc, ha1, _⟩
            · refine hminj a' b'' ?_
              rw [heqj, hbj]
              calc aj ++ jarBang ++ (q ++ zipBang ++ bz)
                  = (aj ++ jarBang ++ q ++ zipBang) ++ bz := by
                    simp [List.append_assoc]
                _ = a' ++ jarBang ++ b'' := hoc
            · have h1 : s = a'' ++ jarBang ++ b'' := by
                rw [heqj, hbj]
                calc aj ++ jarBang ++ (q ++ zipBang ++ bz)
                    = (aj ++ jarBang ++ q ++ zipBang) ++ bz := by
                      simp [List.append_assoc]
                  _ = a'' ++ jarBang ++ b'' := hoc
              have := hminj a'' b'' h1
              omega
          have hEeq : (aj ++ (jarBang ++ [sep]) ++ q) ++ (zipBang ++ [sep]) ++ bz
              = aj ++ (jarBang ++ [sep]) ++ (q ++ (zipBang ++ [sep]) ++ bz) := by
            simp [List.append_assoc]
          have hd1 : replaceFirst
              ((aj ++ (jarBang ++ [sep]) ++ q) ++ (zipBang ++ [sep]) ++ bz)
              (jarBang ++ [sep]) jarBang
              = aj ++ jarBang ++ (q ++ (zipBang ++ [sep]) ++ bz) := by
            rw [hEeq]
            exact replace_at_insert rfl hd1min hsj jarBang_ne_nil
          have hd2 : replaceFirst
              (aj ++ jarBang ++ (q ++ (zipBang ++ [sep]) ++ bz))
              (zipBang ++ [sep]) zipBang = s := by
            have hDeq : aj ++ jarBang ++ (q ++ (zipBang ++ [sep]) ++ bz)
                = (aj ++ jarBang ++ q) ++ (zipBang ++ [sep]) ++ bz := by
              simp [List.append_assoc]
            rw [hDeq, ← haz,
              replace_at_insert heqz hminz hsz zipBang_ne_nil, ← heqz]
          have hmemE : archiveSep ∈
              (aj ++ (jarBang ++ [sep]) ++ q) ++ (zipBang ++ [sep]) ++ bz := by
            simp [List.mem_append, bang_mem_zipBang]
          rw [henc, archiveDecodeWith_def, if_pos hmemE, hd1, hd2,
            trim_of_getLast hlast]
        · -- Subcase D2: the zip occurrence lies strictly before the jar one.
          obtain ⟨q, haj, hbz⟩ := occ_in_right (heqz.symm.trans heqj)
            (by rw [List.length_append, ez]; omega)
          have hlenaj := congrArg List.length haj
          rw [List.length_append, List.length_append, ez] at hlenaj
          have hr1eq : aj ++ (jarBang ++ [sep]) ++ bj
              = az ++ zipBang ++ (q ++ (jarBang ++ [sep]) ++ bj) := by
            rw [haj]
            simp [List.append_assoc]
          have hr2 : replaceFirst (aj ++ (jarBang ++ [sep]) ++ bj) zipBang
              (zipBang ++ [sep])
              = az ++ (zipBang ++ [sep]) ++ (q ++ (jarBang ++ [sep]) ++ bj) := by
            rw [hr1eq]
            apply replaceFirst_first_occ
            intro a' b' h'
            have h'' : (aj ++ jarBang) ++ [sep] ++ bj = a' ++ zipBang ++ b' := by
              calc (aj ++ jarBang) ++ [sep] ++ bj
                  = aj ++ (jarBang ++ [sep]) ++ bj := by simp [List.append_assoc]
                _ = az ++ zipBang ++ (q ++ (jarBang ++ [sep]) ++ bj) := hr1eq
                _ = a' ++ zipBang ++ b' := h'.symm
            rcases occ_through_insert h'' hsz zipBang_ne_nil with
              ⟨b'', hoc, _⟩ | ⟨a'', b'', hoc, ha1, _⟩
            · exact hminz a' b'' (heqj.trans hoc)
            · have := hminz a'' b'' (heqj.trans hoc)
              omega
          have henc : archiveEncodeWith sep s
              = az ++ (zipBang ++ [sep]) ++ (q ++ (jarBang ++ [sep]) ++ bj) := by
            rw [archiveEncodeWith_def, if_pos hmem, hr1, hr2]
          have hd1min : ∀ a' b',
              az ++ (zipBang ++ [sep]) ++ q ++ jarBang ++ bj
                = a' ++ jarBang ++ b' →
              (az ++ (zipBang ++ [sep]) ++ q).length ≤ a'.length := by
            intro a' b' h'
            have h'' : (az ++ zipBang) ++ [sep] ++ (q ++ jarBang ++ bj)
                = a' ++ jarBang ++ b' := by
              calc (az ++ zipBang) ++ [sep] ++ (q ++ jarBang ++ bj)
                  = az ++ (zipBang ++ [sep]) ++ q ++ jarBang ++ bj := by
                    simp [List.append_assoc]
                _ = a' ++ jarBang ++ b' := h'
            have hsq : s = az ++ zipBang ++ (q ++ jarBang ++ bj) := by
              rw [heqz, hbz]
            rcases occ_through_insert h'' hsj jarBang_ne_nil with
              ⟨b'', hoc, hle⟩ | ⟨a'', b'', hoc, ha1, _⟩
            · exfalso
              have h1 := hminj a' b'' (hsq.trans hoc)
              rw [List.length_append, ej, ez] at hle
              omega
            · have h1 := hminj a'' b'' (hsq.trans hoc)
              simp only [List.length_append, List.length_cons,
                List.length_nil, ez]
              omega
          have hEeq : az ++ (zipBang ++ [sep]) ++ (q ++ (jarBang ++ [sep]) ++ bj)
              = (az ++ (zipBang ++ [sep]) ++ q) ++ (jarBang ++ [sep]) ++ bj := by
            simp [List.append_assoc]
          have hd1 : replaceFirst
              (az ++ (zipBang ++ [sep]) ++ (q ++ (jarBang ++ [sep]) ++ bj))
              (jarBang ++ [sep]) jarBang
              = (az ++ (zipBang ++ [sep]) ++ q) ++ jarBang ++ bj := by
            rw [hEeq]
            exact replace_at_insert rfl hd1min hsj jarBang_ne_nil
          have hd2 : replaceFirst
              ((az ++ (zipBang ++ [sep]) ++ q) ++ jarBang ++ bj)
              (zipBang ++ [sep]) zipBang = s := by
            have hDeq : (az ++ (zipBang ++ [sep]) ++ q) ++ jarBang ++ bj
                = az ++ (zipBang ++ [sep]) ++ (q ++ jarBang ++ bj) := by
              simp [List.append_assoc]
            have hsq : s = az ++ zipBang ++ (q ++ jarBang ++ bj) := by
              rw [heqz, hbz]
            rw [hDeq, replace_at_insert hsq hminz hsz zipBang_ne_nil, ← hsq]
          have hmemE : archiveSep ∈
              az ++ (zipBang ++ [sep]) ++ (q ++ (jarBang ++ [sep]) ++ bj) := by
            simp [List.mem_append, bang_mem_zipBang]
          rw [henc, archiveDecodeWith_def, if_pos hmemE, hd1, hd2,
            trim_of_getLast hlast]
      · -- Case B: only the jar pattern occurs.
        obtain ⟨a, b, heq, hmin⟩ := exists_min_occ hj
        have hr1 : replaceFirst s jarBang (jarBang ++ [sep])
            = a ++ (jarBang ++ [sep]) ++ b := by
          rw [heq]
          apply replaceFirst_first_occ
          intro a' b' h'
          exact hmin a' b' (heq.trans h'.symm)
        have hz0 : ¬ zipBang <:+: (a ++ jarBang ++ b) := by
          intro hc
          apply hz
          rw [heq]
          exact hc
        have hz1 : ¬ zipBang <:+: (a ++ (jarBang ++ [sep]) ++ b) := by
          intro hc
          refine not_infix_insert hz0 hsz zipBang_ne_nil ?_
          simpa [List.append_assoc] using hc
        have henc : archiveEncodeWith sep s = a ++ (jarBang ++ [sep]) ++ b := by
          rw [archiveEncodeWith_def, if_pos hmem, hr1, replaceFirst_no_occ hz1]
        have hmem2 : archiveSep ∈ a ++ (jarBang ++ [sep]) ++ b := by
          simp [List.mem_append, bang_mem_jarBang]
        have hd1 : replaceFirst (a ++ (jarBang ++ [sep]) ++ b)
            (jarBang ++ [sep]) jarBang = a ++ jarBang ++ b :=
          replace_at_insert heq hmin hsj jarBang_ne_nil
        have hd2 : replaceFirst (a ++ jarBang ++ b) (zipBang ++ [sep]) zipBang
            = a ++ jarBang ++ b := by
          refine replaceFirst_no_occ ?_
          intro hc
          exact hz0 (patSep_occ_drop hc)
        rw [henc, archiveDecodeWith_def, if_pos hmem2, hd1, hd2, ← heq,
          trim_of_getLast hlast]
    · by_cases hz : zipBang <:+: s
      · -- Case C: only the zip pattern occurs.
        obtain ⟨a, b, heq, hmin⟩ := exists_min_occ hz
        have hr1 : replaceFirst s jarBang (jarBang ++ [sep]) = s :=
          replaceFirst_no_occ hj
        have hr2 : replaceFirst s zipBang (zipBang ++ [sep])
            = a ++ (zipBang ++ [sep]) ++ b := by
          rw [heq]
          apply replaceFirst_first_occ
          intro a' b' h'
          exact hmin a' b' (heq.trans h'.symm)
        have henc : archiveEncodeWith sep s = a ++ (zipBang ++ [sep]) ++ b := by
          rw [archiveEncodeWith_def, if_pos hmem, hr1, hr2]
        have hj0 : ¬ jarBang <:+: (a ++ zipBang ++ b) := by
          intro hc
          apply hj
          rw [heq]
          exact hc
        have hj2 : ¬ (jarBang ++ [sep]) <:+: (a ++ (zipBang ++ [sep]) ++ b) := by
          intro hc
          have hc' : (jarBang ++ [sep]) <:+: (a ++ zipBang ++ [sep] ++ b) := by
            simpa [List.append_assoc] using hc
          exact not_infix_insert hj0 hsj jarBang_ne_nil
            (patSep_occ_drop hc')
        have hmem2 : archiveSep ∈ a ++ (zipBang ++ [sep]) ++ b := by
          simp [List.mem_append, bang_mem_zipBang]
        have hd1 : replaceFirst (a ++ (zipBang ++ [sep]) ++ b)
            (jarBang ++ [sep]) jarBang = a ++ (zipBang ++ [sep]) ++ b :=
          replaceFirst_no_occ hj2
        have hd2 : replaceFirst (a ++ (zipBang ++ [sep]) ++ b)
            (zipBang ++ [sep]) zipBang = a ++ zipBang ++ b :=
          replace_at_insert heq hmin hsz zipBang_ne_nil
        rw [henc, archiveDecodeWith_def, if_pos hmem2, hd1, hd2, ← heq,
          trim_of_getLast hlast]
      · -- Neither pattern occurs: contradicts well-formedness.
        rcases wf_has_pattern hwf hmem with hc | hc
        · exact absurd hc hj
        · exact absurd hc hz
  · rw [archiveEncodeWith_def, if_neg hmem, archiveDecodeWith_def, if_neg hmem]

lemma findFrom_ge {pat : List Char} :
    ∀ {l : List Char} {i n : Nat}, findFrom pat l i = some n → i ≤ n := by
  intro l
  induction l with
  | nil =>
    intro i n h
    rw [findFrom] at h
    by_cases hp : pat.isPrefixOf ([] : List Char) = true
    · rw [if_pos hp] at h
      injection h with h
      omega
    · rw [if_neg hp] at h
      exact absurd h (by simp)
  | cons c rest ih =>
    intro i n h
    rw [findFrom] at h
    by_cases hp : pat.isPrefixOf (c :: rest) = true
    · rw [if_pos hp] at h
      injection h with h
      omega
    · rw [if_neg hp] at h
      have := ih h
      omega

lemma findFrom_self_iff {pat l : List Char} {i : Nat} :
    findFrom pat l i = some i ↔ pat.isPrefixOf l = true := by
  constructor
  · intro h
    cases l with
    | nil =>
      rw [findFrom] at h
      by_cases hp : pat.isPrefixOf ([] : List Char) = true
      · exact hp
      · rw [if_neg hp] at h
        exact absurd h (by simp)
    | cons c rest =>
      rw [findFrom] at h
      by_cases hp : pat.isPrefixOf (c :: rest) = true
      · exact hp
      · rw [if_neg hp] at h
        have := findFrom_ge h
        omega
  · intro h
    cases l with
    | nil => rw [findFrom, if_pos h]
    | cons c rest => rw [findFrom, if_pos h]

lemma findFrom_none_of_short {pat : List Char} :
    ∀ {l : List Char} {i : Nat}, l.length < pat.length →
      findFrom pat l i = none := by
  intro l
  induction l with
  | nil =>
    intro i h
    rw [findFrom]
    have hp : pat.isPrefixOf ([] : List Char) = false := by
      cases pat with
      | nil => simp at h
      | cons p pr => rfl
    rw [hp]
    rfl
  | cons c rest ih =>
    intro i h
    rw [findFrom]
    have hp : pat.isPrefixOf (c :: rest) = false := by
      by_contra hb
      have hb' : pat.isPrefixOf (c :: rest) = true := by
        cases hx : pat.isPrefixOf (c :: rest)
        · exact absurd hx hb
        · rfl
      have := (List.isPrefixOf_iff_prefix.mp hb').length_le
      simp at this h
      omega
    rw [hp]
    simp only [Bool.false_eq_true, if_false]
    exact ih (by simp at h ⊢; omega)

lemma findFrom_some_infix {pat : List Char} :
    ∀ {l : List Char} {i n : Nat}, findFrom pat l i = some n → pat <:+: l := by
  intro l
  induction l with
  | nil =>
    intro i n h
    rw [findFrom] at h
    by_cases hp : pat.isPrefixOf ([] : List Char) = true
    · exact (List.isPrefixOf_iff_prefix.mp hp).isInfix
    · rw [if_neg hp] at h
      exact absurd h (by simp)
  | cons c rest ih =>
    intro i n h
    rw [findFrom] at h
    by_cases hp : pat.isPrefixOf (c :: rest) = true
    · exact (List.isPrefixOf_iff_prefix.mp hp).isInfix
    · rw [if_neg hp] at h
      exact List.infix_cons (ih h)

lemma findFrom_singleton {c : Char} :
    ∀ (l : List Char) (i j : Nat), findFrom [c] l i = some (i + j) →
      (l.drop j).head? = some c ∧ c ∉ l.take j := by
  intro l
  induction l with
  | nil =>
    intro i j h
    rw [findFrom] at h
    exact absurd h (by simp [List.isPrefixOf])
  | cons d rest ih =>
    intro i j h
    rw [findFrom] at h
    by_cases hp : ([c] : List Char).isPrefixOf (d :: rest) = true
    · have hcd : c = d := by
        obtain ⟨t, ht⟩ := List.isPrefixOf_iff_prefix.mp hp
        simpa using congrArg List.head? ht
      rw [if_pos hp] at h
      injection h with h
      have hj : j = 0 := by omega
      subst hj
      subst hcd
      exact ⟨rfl, by simp⟩
    · rw [if_neg hp] at h
      have hge := findFrom_ge h
      have hj1 : 1 ≤ j := by omega
      have h' : findFrom [c] rest (i + 1) = some ((i + 1) + (j - 1)) := by
        rw [show (i + 1) + (j - 1) = i + j by omega]
        exact h
      have hcd : c ≠ d := by
        intro hc
        subst hc
        exact hp (by simp [List.isPrefixOf])
      obtain ⟨h1, h2⟩ := ih (i + 1) (j - 1) h'
      constructor
      · rw [show j = (j - 1) + 1 by omega]
        simpa using h1
      · rw [show j = (j - 1) + 1 by omega]
        simp only [List.take_succ_cons, List.mem_cons]
        rintro (hc | hc)
        · exact hcd hc
        · exact h2 hc

lemma findFrom_first_at {c : Char} {h v : List Char} (hsl : c ∉ h)
    (hv : v.head? = some c) :
    ∀ i, findFrom [c] (h ++ v) i = some (i + h.length) := by
  induction h with
  | nil =>
    intro i
    cases v with
    | nil => exact absurd hv (by simp)
    | cons d vs =>
      have hd : d = c := by
        simpa using hv
      subst hd
      rw [List.nil_append, findFrom, if_pos (by simp [List.isPrefixOf])]
      simp
  | cons d hs ih =>
    intro i
    have hd : c ≠ d := by
      intro hc
      exact hsl (hc ▸ List.mem_cons_self d hs)
    have hsl' : c ∉ hs := fun hc => hsl (List.mem_cons_of_mem d hc)
    rw [List.cons_append, findFrom]
    have hp : ([c] : List Char).isPrefixOf (d :: (hs ++ v)) = false := by
      simp [List.isPrefixOf, hd]
    rw [hp]
    simp only [Bool.false_eq_true, if_false]
    rw [ih hsl' (i + 1)]
    congr 1
    simp
    omega

lemma charAt_last {s : List Char} (h : s ≠ []) :
    charAt s ((s.length : Int) - 1) = s.getLast? := by
  have hlen : 1 ≤ s.length := List.length_pos.mpr h
  unfold charAt
  rw [if_neg (by omega)]
  have ht : ((s.length : Int) - 1).toNat = s.length - 1 := by omega
  rw [ht, List.getLast?_eq_getElem?, List.get?_eq_getElem?]

lemma getLast?_mem' {l : List Char} {a : Char} (h : l.getLast? = some a) :
    a ∈ l := by
  rw [List.getLast?_eq_getElem?, ← List.get?_eq_getElem?] at h
  exact List.get?_mem h

lemma getLast?_of_suffix {p s : List Char} (h : p <:+ s) (hp : p ≠ []) :
    s.getLast? = p.getLast? := by
  obtain ⟨w, hw⟩ := h
  rw [← hw]
  exact List.getLast?_append_of_ne_nil w hp

lemma suffix_of_append_right {p x y : List Char} (h : p <:+ (x ++ y))
    (hl : p.length ≤ y.length) : p <:+ y := by
  obtain ⟨w, hw⟩ := h
  rcases List.append_eq_append_iff.mp hw with ⟨t, ht1, ht2⟩ | ⟨t, ht1, ht2⟩
  · have hlt := congrArg List.length ht2
    simp at hlt
    have ht0 : t = [] := by
      have : t.length = 0 := by omega
      exact List.length_eq_zero.mp this
    subst ht0
    simp at ht2
    exact ht2 ▸ List.suffix_refl y
  · exact ⟨t, ht2.symm⟩

lemma head?_take {s : List Char} {n : Nat} (h : 1 ≤ n) :
    (s.take n).head? = s.head? := by
  cases s with
  | nil => simp
  | cons c cs =>
    cases n with
    | zero => omega
    | succ m => simp

lemma jsIndexOfFrom_self {s ext : List Char} {k : Nat} :
    (jsIndexOfFrom s ext (k : Int) == (k : Int)) = true ↔
      ext.isPrefixOf (s.drop k) = true := by
  unfold jsIndexOfFrom
  have htn : ((k : Int)).toNat = k := by simp
  rw [htn]
  cases hf : findFrom ext (s.drop k) k with
  | none =>
    show ((-1 : Int) == (k : Int)) = true ↔ _
    constructor
    · intro hc
      rw [beq_iff_eq] at hc
      exfalso
      omega
    · intro hp
      rw [findFrom_self_iff.mpr hp] at hf
      exact absurd hf (by simp)
  | some n =>
    show (((n : Nat) : Int) == (k : Int)) = true ↔ _
    rw [beq_iff_eq]
    constructor
    · intro hc
      have hn : n = k := by exact_mod_cast hc
      rw [hn] at hf
      exact findFrom_self_iff.mp hf
    · intro hp
      have hk : findFrom ext (s.drop k) k = some k := findFrom_self_iff.mpr hp
      rw [hf] at hk
      injection hk with hk
      rw [hk]

lemma jsIndexOfFrom_neg_short {s ext : List Char} {K : Int} (hK : K < 0)
    (hshort : s.length < ext.length) (hKne : K ≠ -1) :
    (jsIndexOfFrom s ext K == K) = false := by
  unfold jsIndexOfFrom
  have h0 : K.toNat = 0 := by omega
  rw [h0, List.drop_zero, findFrom_none_of_short hshort]
  show ((-1 : Int) == K) = false
  rw [beq_eq_false_iff_ne]
  omega

lemma jsIndexOfFrom_neg1_len4 {s ext : List Char} (hlen : s.length = 4)
    (hext : ext.length = 4) (hne : s.getLast? ≠ ext.getLast?) :
    (jsIndexOfFrom s ext (-1) == (-1 : Int)) = true := by
  unfold jsIndexOfFrom
  have h0 : ((-1 : Int)).toNat = 0 := rfl
  rw [h0, List.drop_zero]
  cases hf : findFrom ext s 0 with
  | none => simp
  | some n =>
    exfalso
    have hinf := findFrom_some_infix hf
    have heq : ext = s := hinf.sublist.eq_of_length (by rw [hext, hlen])
    apply hne
    rw [heq]

lemma suffix_bang_iff {s ext : List Char} (hext4 : ext.length = 4)
    (hlen5 : 5 ≤ s.length) (hlast : s.getLast? = some archiveSep) :
    (ext ++ [archiveSep]) <:+ s ↔
      ext.isPrefixOf (s.drop (s.length - 5)) = true := by
  constructor
  · intro h
    have hdrop := (List.suffix_iff_eq_drop.mp h).symm
    rw [List.length_append, hext4, List.length_cons, List.length_nil] at hdrop
    rw [List.isPrefixOf_iff_prefix, hdrop]
    exact List.prefix_append ext [archiveSep]
  · intro h
    obtain ⟨t, ht⟩ := List.isPrefixOf_iff_prefix.mp h
    have hdl : (s.drop (s.length - 5)).length = 5 := by
      rw [List.length_drop]
      omega
    have htl : t.length = 1 := by
      have hc := congrArg List.length ht
      rw [hdl, List.length_append, hext4] at hc
      omega
    have hdne : s.drop (s.length - 5) ≠ [] := by
      intro hz
      rw [hz] at hdl
      simp at hdl
    have hgl : (s.drop (s.length - 5)).getLast? = some archiveSep := by
      rw [← getLast?_of_suffix (List.drop_suffix (s.length - 5) s) hdne]
      exact hlast
    rw [← ht] at hgl
    have htne : t ≠ [] := by
      intro hz
      rw [hz] at htl
      simp at htl
    rw [List.getLast?_append_of_ne_nil ext htne] at hgl
    obtain ⟨c, hc⟩ : ∃ c, t = [c] := by
      cases t with
      | nil => simp at htl
      | cons c rest =>
        cases rest with
        | nil => exact ⟨c, rfl⟩
        | cons d r2 => simp at htl
    subst hc
    simp at hgl
    subst hgl
    rw [ht]
    exact List.drop_suffix (s.length - 5) s

/-- Exact characterization of `_endsWithArchiveSeparator`: the string ends
with `.jar!` or `.zip!`, or — the `indexOf(ext, -1)` quirk — has length
exactly four and ends with `!`. -/
lemma endsArch_iff (s : List Char) :
    endsWithArchiveSeparator s = true ↔
      jarBang <:+ s ∨ zipBang <:+ s ∨
        (s.length = 4 ∧ s.getLast? = some archiveSep) := by
  by_cases hnil : s = []
  · subst hnil
    constructor
    · intro h
      exact absurd h (by decide)
    · rintro (h | h | ⟨h4, _⟩)
      · simp at h
        exact absurd h (by decide)
      · simp at h
        exact absurd h (by decide)
      · simp at h4
  · have hlen : 1 ≤ s.length := List.length_pos.mpr hnil
    unfold endsWithArchiveSeparator isArchiveSeparator
    rw [charAt_last hnil]
    have hgt : decide ((s.length : Int) > (s.length : Int) - 1) = true := by
      simp only [decide_eq_true_eq]
      omega
    rw [hgt]
    by_cases hlast : s.getLast? = some archiveSep
    · have h1 : (s.getLast? == some archiveSep) = true := by simpa using hlast
      rw [h1]
      simp only [Bool.true_and, knownArchiveExtensions, List.any_cons,
        List.any_nil, Bool.or_false]
      rcases Nat.lt_or_ge s.length 4 with h4 | h4
      · have hKj : ((s.length : Int) - 1 - (jarExt.length : Int)) < 0 ∧
            ((s.length : Int) - 1 - (jarExt.length : Int)) ≠ -1 := by
          have : (jarExt.length : Int) = 4 := by decide
          rw [this]
          omega
        have hKz : ((s.length : Int) - 1 - (zipExt.length : Int)) < 0 ∧
            ((s.length : Int) - 1 - (zipExt.length : Int)) ≠ -1 := by
          have : (zipExt.length : Int) = 4 := by decide
          rw [this]
          omega
        rw [jsIndexOfFrom_neg_short hKj.1 (by simp [jarExt]; omega) hKj.2,
          jsIndexOfFrom_neg_short hKz.1 (by simp [zipExt]; omega) hKz.2]
        simp only [Bool.or_false]
        constructor
        · intro h
          exact absurd h (by simp)
        · rintro (h | h | ⟨hl4, _⟩)
          · have := h.length_le
            simp [jarBang, jarExt] at this
            omega
          · have := h.length_le
            simp [zipBang, zipExt] at this
            omega
          · omega
      rcases Nat.lt_or_ge s.length 5 with h5 | h5
      · -- length exactly 4
        have hl4 : s.length = 4 := by omega
        have hKj : (s.length : Int) - 1 - (jarExt.length : Int) = -1 := by
          have : (jarExt.length : Int) = 4 := by decide
          rw [this]
          omega
        rw [hKj, jsIndexOfFrom_neg1_len4 hl4 (by decide)
          (by rw [hlast]; decide)]
        simp only [Bool.true_or]
        constructor
        · intro _
          exact Or.inr (Or.inr ⟨hl4, hlast⟩)
        · intro _
          trivial
      · -- length at least 5
        have hKj : (s.length : Int) - 1 - (jarExt.length : Int)
            = ((s.length - 5 : Nat) : Int) := by
          have : (jarExt.length : Int) = 4 := by decide
          rw [this]
          omega
        have hKz : (s.length : Int) - 1 - (zipExt.length : Int)
            = ((s.length - 5 : Nat) : Int) := by
          have : (zipExt.length : Int) = 4 := by decide
          rw [this]
          omega
        rw [hKj, hKz]
        have hj := @jsIndexOfFrom_self s jarExt (s.length - 5)
        have hz := @jsIndexOfFrom_self s zipExt (s.length - 5)
        have hjs := @suffix_bang_iff s jarExt (by decide) h5 hlast
        have hzs := @suffix_bang_iff s zipExt (by decide) h5 hlast
        constructor
        · intro h
          rw [Bool.or_eq_true] at h
          rcases h with hc | hc
          · exact Or.inl (hjs.mpr (hj.mp hc))
          · exact Or.inr (Or.inl (hzs.mpr (hz.mp hc)))
        · rintro (h | h | ⟨hl4, _⟩)
          · rw [Bool.or_eq_true]
            exact Or.inl (hj.mpr (hjs.mp h))
          · rw [Bool.or_eq_true]
            exact Or.inr (hz.mpr (hzs.mp h))
          · omega
    · have h1 : (s.getLast? == some archiveSep) = false := by simpa using hlast
      rw [h1]
      simp only [Bool.false_and, Bool.and_false]
      constructor
      · intro h
        exact absurd h (by simp)
      · rintro (h | h | ⟨_, hl⟩)
        · exact absurd ((getLast?_of_suffix h (by decide)).trans (by decide))
            hlast
        · exact absurd ((getLast?_of_suffix h (by decide)).trans (by decide))
            hlast
        · exact absurd hl hlast

lemma endsArch_getLast {s : List Char}
    (h : endsWithArchiveSeparator s = true) :
    s.getLast? = some archiveSep := by
  rcases (endsArch_iff s).mp h with hs | hs | ⟨_, hl⟩
  · exact (getLast?_of_suffix hs (by decide)).trans (by decide)
  · exact (getLast?_of_suffix hs (by decide)).trans (by decide)
  · exact hl

lemma endsArch_mem {s : List Char}
    (h : endsWithArchiveSeparator s = true) : archiveSep ∈ s :=
  getLast?_mem' (endsArch_getLast h)

lemma endsArch_take_pred {s : List Char}
    (h : endsWithArchiveSeparator s = true) :
    endsWithArchiveSeparator (s.take (s.length - 1)) = false := by
  rcases (endsArch_iff s).mp h with hs | hs | ⟨hl4, _⟩
  · obtain ⟨w, hw⟩ := hs
    have hlw : s.length = w.length + 5 := by
      rw [← hw]
      simp [jarBang, jarExt]
    have htake : s.take (s.length - 1) = w ++ jarExt := by
      rw [← hw]
      have hl : (w ++ jarBang).length - 1 = w.length + 4 := by
        simp [jarBang, jarExt]
      rw [hl, List.take_append 4]
      congr 1
    rw [htake]
    apply endsArch_false_of_getLast
    rw [List.getLast?_append_of_ne_nil w (by decide)]
    decide
  · obtain ⟨w, hw⟩ := hs
    have hlw : s.length = w.length + 5 := by
      rw [← hw]
      simp [zipBang, zipExt]
    have htake : s.take (s.length - 1) = w ++ zipExt := by
      rw [← hw]
      have hl : (w ++ zipBang).length - 1 = w.length + 4 := by
        simp [zipBang, zipExt]
      rw [hl, List.take_append 4]
      congr 1
    rw [htake]
    apply endsArch_false_of_getLast
    rw [List.getLast?_append_of_ne_nil w (by decide)]
    decide
  · have hlt : (s.take (s.length - 1)).length = 3 := by
      rw [List.length_take]
      omega
    cases hE : endsWithArchiveSeparator (s.take (s.length - 1))
    · rfl
    · exfalso
      rcases (endsArch_iff _).mp hE with hs' | hs' | ⟨hl4', _⟩
      · have hle := hs'.length_le
        rw [hlt] at hle
        simp [jarBang, jarExt] at hle
      · have hle := hs'.length_le
        rw [hlt] at hle
        simp [zipBang, zipExt] at hle
      · rw [hlt] at hl4'
        exact absurd hl4' (by decide)

lemma decode_not_endsArch (sep : Char) (s : List Char) :
    endsWithArchiveSeparator (archiveDecodeWith sep s) = false := by
  rw [archiveDecodeWith_def]
  by_cases hmem : archiveSep ∈ s
  · rw [if_pos hmem]
    unfold trimArchiveSuffix
    by_cases hE : endsWithArchiveSeparator
        (replaceFirst (replaceFirst s (jarBang ++ [sep]) jarBang)
          (zipBang ++ [sep]) zipBang) = true
    · rw [if_pos hE]
      exact endsArch_take_pred hE
    · rw [if_neg hE]
      simpa using hE
  · rw [if_neg hmem]
    apply endsArch_false_of_getLast
    intro hl
    exact hmem (getLast?_mem' hl)

lemma not_endsArch_append {U v : List Char} (hU : 5 ≤ U.length)
    (hv : v.head? = some '/') (hnv : endsWithArchiveSeparator v = false) :
    endsWithArchiveSeparator (U ++ v) = false := by
  have hvne : v ≠ [] := by
    intro hz
    rw [hz] at hv
    simp at hv
  have hvslash : '/' ∈ v := by
    cases v with
    | nil => exact absurd rfl hvne
    | cons c cs =>
      have hc : c = '/' := by simpa using hv
      subst hc
      exact List.mem_cons_self _ _
  cases hE : endsWithArchiveSeparator (U ++ v)
  · rfl
  exfalso
  rcases (endsArch_iff _).mp hE with hs | hs | ⟨hl4, _⟩
  · by_cases h5 : 5 ≤ v.length
    · have hsv : jarBang <:+ v := suffix_of_append_right hs
        (by simp [jarBang, jarExt]; omega)
      have hv' := (endsArch_iff v).mpr (Or.inl hsv)
      rw [hnv] at hv'
      exact absurd hv' (by simp)
    · obtain ⟨x, hx⟩ := hs
      rcases List.append_eq_append_iff.mp hx with ⟨w, _, hw2⟩ | ⟨w, _, hw2⟩
      · have hmem : '/' ∈ jarBang := by
          rw [hw2]
          exact List.mem_append.mpr (Or.inr hvslash)
        exact absurd hmem (by decide)
      · have := congrArg List.length hw2
        simp [jarBang, jarExt] at this
        omega
  · by_cases h5 : 5 ≤ v.length
    · have hsv : zipBang <:+ v := suffix_of_append_right hs
        (by simp [zipBang, zipExt]; omega)
      have hv' := (endsArch_iff v).mpr (Or.inr (Or.inl hsv))
      rw [hnv] at hv'
      exact absurd hv' (by simp)
    · obtain ⟨x, hx⟩ := hs
      rcases List.append_eq_append_iff.mp hx with ⟨w, _, hw2⟩ | ⟨w, _, hw2⟩
      · have hmem : '/' ∈ zipBang := by
          rw [hw2]
          exact List.mem_append.mpr (Or.inr hvslash)
        exact absurd hmem (by decide)
      · have := congrArg List.length hw2
        simp [zipBang, zipExt] at this
        omega
  · rw [List.length_append] at hl4
    omega

lemma trim_head {t : List Char} (h : t.head? = some '/') :
    (trimArchiveSuffix t).head? = some '/' := by
  unfold trimArchiveSuffix
  by_cases hE : endsWithArchiveSeparator t = true
  · rw [if_pos hE]
    cases t with
    | nil => simp at h
    | cons c cs =>
      cases cs with
      | nil =>
        have hc : c = '/' := by simpa using h
        subst hc
        exact absurd hE (by decide)
      | cons d ds =>
        rw [head?_take (by simp [List.length_cons])]
        exact h
  · rw [if_neg hE]
    exact h

lemma replaceFirst_head_slash {s pat rep : List Char}
    (hs : s.head? = some '/') (hp : pat.head? = some '.') :
    (replaceFirst s pat rep).head? = some '/' := by
  cases s with
  | nil => simp at hs
  | cons c cs =>
    have hc : c = '/' := by simpa using hs
    subst hc
    cases pat with
    | nil => simp at hp
    | cons p pr =>
      have hpd : p = '.' := by simpa using hp
      subst hpd
      rw [replaceFirst_cons_neg (by simp [List.isPrefixOf])]
      simp

lemma archiveEncodeWith_head {sep : Char} {s : List Char}
    (h : s.head? = some '/') :
    (archiveEncodeWith sep s).head? = some '/' := by
  rw [archiveEncodeWith_def]
  by_cases hmem : archiveSep ∈ s
  · rw [if_pos hmem]
    exact replaceFirst_head_slash (replaceFirst_head_slash h (by decide))
      (by decide)
  · rw [if_neg hmem]
    exact h

lemma archiveDecodeWith_head {sep : Char} {s : List Char}
    (h : s.head? = some '/') :
    (archiveDecodeWith sep s).head? = some '/' := by
  rw [archiveDecodeWith_def]
  by_cases hmem : archiveSep ∈ s
  · rw [if_pos hmem]
    exact trim_head (replaceFirst_head_slash
      (replaceFirst_head_slash h rfl) rfl)
  · rw [if_neg hmem]
    exact h

lemma head?_append_left {x t : List Char} {c : Char} (h : x.head? = some c) :
    (x ++ t).head? = some c := by
  cases x with
  | nil => simp at h
  | cons a as => simpa using h

lemma parseRemoteUri_ok_inv {r h p : List Char}
    (hpr : parseRemoteUri r = .ok (h, p)) :
    isRemote r = true ∧ parse r = .ok ⟨some h, p⟩ := by
  unfold parseRemoteUri at hpr
  by_cases hr : isRemote r = true
  · refine ⟨hr, ?_⟩
    rw [if_neg (by simp [hr])] at hpr
    cases hp : parse r with
    | error e =>
      rw [hp] at hpr
      simp at hpr
    | ok pu =>
      rw [hp] at hpr
      cases pu with
      | mk hn pth =>
        cases hn with
        | none => simp at hpr
        | some h' =>
          simp at hpr
          rw [hpr.1, hpr.2]
  · rw [if_pos (by simpa using hr)] at hpr
    simp at hpr

lemma parse_ok_remote {uri h p : List Char}
    (hrem : isRemote uri = true) (hpo : parse uri = .ok ⟨some h, p⟩) :
    uri = remoteUriToken ++ h ++ p ∧ '/' ∉ h ∧ p.head? = some '/' ∧
      h ≠ [] ∧ endsWithArchiveSeparator uri = false := by
  have hpre : remoteUriToken.isPrefixOf uri = true := hrem
  obtain ⟨rest, hrest⟩ := exists_append_of_isPrefixOf hpre
  have hdrop : uri.drop remoteUriToken.length = rest := by
    rw [hrest, List.drop_left]
  cases hf : findFrom ['/'] rest 0 with
  | none =>
    rw [parse, if_pos hpre] at hpo
    simp only [hdrop, hf] at hpo
    exact absurd hpo (by simp)
  | some j =>
    rw [parse, if_pos hpre] at hpo
    simp only [hdrop, hf] at hpo
    by_cases hhn : rest.take j = []
    · rw [if_pos hhn] at hpo
      simp at hpo
    · rw [if_neg hhn] at hpo
      by_cases hE : endsWithArchiveSeparator uri = true
      · rw [if_pos hE] at hpo
        simp at hpo
      · rw [if_neg hE] at hpo
        simp only [Except.ok.injEq, ParsedUrl.mk.injEq,
          Option.some.injEq] at hpo
        obtain ⟨hh, hp2⟩ := hpo
        have hj0 : findFrom ['/'] rest 0 = some (0 + j) := by simpa using hf
        obtain ⟨hhead, hnot⟩ := findFrom_singleton rest 0 j hj0
        refine ⟨?_, ?_, ?_, ?_, ?_⟩
        · rw [hrest, ← hh, ← hp2, List.append_assoc,
            List.take_append_drop]
        · rw [← hh]
          exact hnot
        · rw [← hp2]
          exact hhead
        · rw [← hh]
          exact hhn
        · simpa using hE

lemma parse_build {h v : List Char} (hsl : '/' ∉ h) (hne : h ≠ [])
    (hv : v.head? = some '/')
    (hE : endsWithArchiveSeparator (remoteUriToken ++ h ++ v) = false) :
    parse (remoteUriToken ++ h ++ v) = .ok ⟨some h, v⟩ := by
  have hassoc : remoteUriToken ++ h ++ v = remoteUriToken ++ (h ++ v) := by
    simp [List.append_assoc]
  have hpre : remoteUriToken.isPrefixOf (remoteUriToken ++ h ++ v) = true := by
    rw [List.isPrefixOf_iff_prefix]
    exact ⟨h ++ v, hassoc.symm⟩
  have hdrop :
      (remoteUriToken ++ h ++ v).drop remoteUriToken.length = h ++ v := by
    rw [hassoc, List.drop_left]
  have hff : findFrom ['/'] (h ++ v) 0 = some h.length := by
    simpa using findFrom_first_at hsl hv 0
  have hE' : endsWithArchiveSeparator (remoteUriToken ++ (h ++ v)) = false := by
    rw [← List.append_assoc]
    exact hE
  rw [parse, if_pos hpre]
  simp only [hdrop, hff, List.take_left, List.drop_left]
  rw [if_neg hne, if_neg (by simp [hE, hE'])]

lemma getHostname_build {h v : List Char} (hsl : '/' ∉ h) (hne : h ≠ [])
    (hv : v.head? = some '/')
    (hE : endsWithArchiveSeparator (remoteUriToken ++ h ++ v) = false) :
    getHostname (remoteUriToken ++ h ++ v) = .ok h := by
  have hrem : isRemote (remoteUriToken ++ h ++ v) = true := by
    unfold isRemote
    rw [List.isPrefixOf_iff_prefix]
    exact ⟨h ++ v, by simp [List.append_assoc]⟩
  have hrem' : isRemote (remoteUriToken ++ (h ++ v)) = true := by
    rw [← List.append_assoc]
    exact hrem
  unfold getHostname parseRemoteUri
  rw [if_neg (by simp [hrem, hrem']), parse_build hsl hne hv hE]
  simp [Except.map]

lemma pathModuleForCore_remote (r : List Char) :
    pathModuleForCore (remoteUriToken ++ r) = .posix := by
  unfold pathModuleForCore
  rw [if_neg (by simp [remoteUriToken]), if_pos ?_]
  exact ⟨['n', 'u', 'c', 'l', 'i', 'd', 'e'], r, rfl⟩

lemma isAtomUri_remote (r : List Char) :
    isAtomUri (remoteUriToken ++ r) = false := by
  simp [isAtomUri, atomUriToken, remoteUriToken, List.isPrefixOf]

lemma posixNormalize_abs {s : List Char} (h : s.head? = some '/') :
    (posixNormalize s).head? = some '/' := by
  have hne : s ≠ [] := by
    intro hz
    rw [hz] at h
    simp at h
  rw [posixNormalize, if_neg hne]
  simp only [h, decide_True, Bool.not_true, if_true]
  by_cases hcore :
      List.intercalate ['/'] (normSegs false [] (s.splitOn '/')) = []
  · rw [if_pos hcore]
    rfl
  · rw [if_neg hcore]
    rfl

lemma intercalate_head_cons (sep x : List Char) (ys : List (List Char)) :
    ∃ t, List.intercalate sep (x :: ys) = x ++ t := by
  cases ys with
  | nil => exact ⟨[], by simp [List.intercalate]⟩
  | cons y ys' =>
    refine ⟨sep ++ List.intercalate sep (y :: ys'), ?_⟩
    simp [List.intercalate, List.intersperse]

lemma posixJoin_abs {x : List Char} {rest : List (List Char)}
    (hx : x.head? = some '/') :
    (posixJoin (x :: rest)).head? = some '/' := by
  have hxne : x ≠ [] := by
    intro hz
    rw [hz] at hx
    simp at hx
  rw [posixJoin, if_neg (by simp)]
  have hfil : (x :: rest).filter (· ≠ []) = x :: rest.filter (· ≠ []) := by
    simp [List.filter_cons, hxne]
  obtain ⟨t, ht⟩ := intercalate_head_cons ['/'] x (rest.filter (· ≠ []))
  simp only [hfil, ht]
  rw [if_neg (by
    intro hz
    exact hxne (List.append_eq_nil.mp hz).1)]
  exact posixNormalize_abs (head?_append_left hx)

lemma posixResolveAcc_true : ∀ {l : List (List Char)} {acc : List Char},
    (∃ q ∈ l, q.head? = some '/') → (posixResolveAcc l acc).1 = true := by
  intro l
  induction l with
  | nil =>
    intro acc h
    simp at h
  | cons q rest ih =>
    intro acc h
    rw [posixResolveAcc]
    by_cases hq : q = []
    · rw [if_pos hq]
      apply ih
      rcases h with ⟨r, hr, hrh⟩
      rcases List.mem_cons.mp hr with rfl | hr'
      · rw [hq] at hrh
        simp at hrh
      · exact ⟨r, hr', hrh⟩
    · rw [if_neg hq]
      by_cases habs : q.head? = some '/'
      · rw [if_pos habs]
      · rw [if_neg habs]
        apply ih
        rcases h with ⟨r, hr, hrh⟩
        rcases List.mem_cons.mp hr with rfl | hr'
        · exact absurd hrh habs
        · exact ⟨r, hr', hrh⟩

lemma posixResolve_abs {cwd : List Char} {paths : List (List Char)}
    (h : ∃ q ∈ paths, q.head? = some '/') :
    (posixResolve cwd paths).head? = some '/' := by
  have hacc : (posixResolveAcc paths.reverse []).1 = true :=
    posixResolveAcc_true (by
      rcases h with ⟨q, hq, hqh⟩
      exact ⟨q, List.mem_reverse.mpr hq, hqh⟩)
  rw [posixResolve]
  cases hst : posixResolveAcc paths.reverse [] with
  | mk b acc =>
    rw [hst] at hacc
    simp only at hacc
    subst hacc
    simp only [hst]
    rfl

lemma posixDirname_abs {s : List Char} (h : s.head? = some '/') :
    (posixDirname s).head? = some '/' := by
  have hne : s ≠ [] := by
    intro hz
    rw [hz] at h
    simp at h
  rw [posixDirname, if_neg hne]
  simp only [h]
  by_cases hrt :
      (((s.drop 1).reverse.dropWhile (· = '/')).dropWhile (· ≠ '/')) = []
  · rw [if_pos hrt]
    simp
  · rw [if_neg hrt]
    by_cases h1 :
        (((s.drop 1).reverse.dropWhile (· = '/')).dropWhile
          (· ≠ '/')).length = 1
    · rw [if_pos ⟨trivial, h1⟩]
      rfl
    · rw [if_neg (by
        intro hc
        exact h1 hc.2)]
      rw [head?_take (List.length_pos.mpr hrt)]
      exact h

lemma replaceFirst_append_left {U v pat rep : List Char}
    (h : ∀ a b, U ++ v = a ++ pat ++ b → U.length ≤ a.length) :
    replaceFirst (U ++ v) pat rep = U ++ replaceFirst v pat rep := by
  induction U with
  | nil => simp
  | cons c U' ih =>
    rw [List.cons_append]
    have hp : pat.isPrefixOf (c :: (U' ++ v)) = false := by
      by_contra hb
      have hb' : pat.isPrefixOf (c :: (U' ++ v)) = true := by
        cases hx : pat.isPrefixOf (c :: (U' ++ v))
        · exact absurd hx hb
        · rfl
      obtain ⟨t, ht⟩ := exists_append_of_isPrefixOf hb'
      have hcontra := h [] t (by simpa using ht)
      simp at hcontra
    have hmin' : ∀ a b, U' ++ v = a ++ pat ++ b → U'.length ≤ a.length := by
      intro a b hab
      have hc := h (c :: a) b (by
        rw [List.cons_append, hab]
        simp [List.append_assoc])
      simpa using hc
    rw [replaceFirst_cons_neg hp, ih hmin']
    rfl

/-- No occurrence of a `<q>/` pattern (where `q` holds the archive
separator and no slash) can start inside the `nuclide://hostname` prefix
of a well-formed remote URI whose hostname has no slash and does not end
with `q`. -/
lemma no_early_occ_gen {h v q : List Char}
    (hq_bang : archiveSep ∈ q) (hq_slash : '/' ∉ q)
    (hsl : '/' ∉ h) (hnsuf : ¬ q <:+ h)
    (hv : v.head? = some '/') :
    ∀ a b, remoteUriToken ++ h ++ v = a ++ (q ++ ['/']) ++ b →
      (remoteUriToken ++ h).length ≤ a.length := by
  have hnotq : ∀ a', remoteUriToken ++ h ≠ a' ++ q := by
    intro a' heq
    rcases List.append_eq_append_iff.mp heq with ⟨u, hu1, hu2⟩ | ⟨u, hu1, hu2⟩
    · exact hnsuf ⟨u, hu2.symm⟩
    · cases u with
      | nil =>
        simp at hu2
        apply hnsuf
        rw [hu2]
      | cons uc ur =>
        have hul : remoteUriToken.getLast? = (uc :: ur).getLast? := by
          rw [hu1]
          exact List.getLast?_append_of_ne_nil a' (by simp)
        have hmem1 : '/' ∈ (uc :: ur) := by
          apply getLast?_mem'
          rw [← hul]
          decide
        have hmem2 : '/' ∈ q := by
          rw [hu2]
          exact List.mem_append.mpr (Or.inl hmem1)
        exact hq_slash hmem2
  intro a b hab
  by_contra hlt
  push_neg at hlt
  have hab' : remoteUriToken ++ h ++ v = a ++ (q ++ '/' :: b) := by
    rw [hab]
    simp [List.append_assoc]
  rcases List.append_eq_append_iff.mp hab' with ⟨w, hw1, hw2⟩ | ⟨w, hw1, hw2⟩
  · have hl := congrArg List.length hw1
    simp at hl hlt
    omega
  · rcases List.append_eq_append_iff.mp hw2 with ⟨t, ht1, ht2⟩ | ⟨t, ht1, ht2⟩
    · cases t with
      | nil =>
        simp at ht1
        rw [ht1] at hw1
        exact hnotq a hw1
      | cons tc tr =>
        have htc : tc = '/' := by
          have := congrArg List.head? ht2
          simpa using this.symm
        subst htc
        have hw1' : remoteUriToken ++ h = (a ++ q) ++ ('/' :: tr) := by
          rw [hw1, ht1]
          simp [List.append_assoc]
        rcases List.append_eq_append_iff.mp hw1' with
          ⟨u, hu1, hu2⟩ | ⟨u, hu1, hu2⟩
        · have : '/' ∈ h := by
            rw [hu2]
            exact List.mem_append.mpr (Or.inr (List.mem_cons_self _ _))
          exact hsl this
        · cases u with
          | nil =>
            simp at hu2
            have : '/' ∈ h := by
              rw [← hu2]
              exact List.mem_cons_self _ _
            exact hsl this
          | cons uc ur =>
            have : archiveSep ∈ remoteUriToken := by
              rw [hu1]
              exact List.mem_append.mpr
                (Or.inl (List.mem_append.mpr (Or.inr hq_bang)))
            exact absurd this (by decide)
    · cases t with
      | nil =>
        simp at ht1
        rw [← ht1] at hw1
        exact hnotq a hw1
      | cons tc tr =>
        have htc : tc = '/' := by
          have := congrArg List.head? ht2
          simpa [hv] using this.symm
        subst htc
        have : '/' ∈ q := by
          rw [ht1]
          exact List.mem_append.mpr (Or.inr (List.mem_cons_self _ _))
        exact hq_slash this

lemma getHostname_createRemote {h w : List Char} (hsl : '/' ∉ h)
    (hne : h ≠ []) (hw : w.head? = some '/')
    (hnE : endsWithArchiveSeparator w = false) :
    (createRemoteUri h w).bind getHostname = .ok h := by
  have hwne : w ≠ [] := by
    intro hz
    rw [hz] at hw
    simp at hw
  unfold createRemoteUri
  rw [if_neg hwne]
  show getHostname (remoteUriToken ++ h ++ w) = .ok h
  exact getHostname_build hsl hne hw
    (not_endsArch_append (by simp [remoteUriToken]) hw hnE)

/-- Decoding the FULL remote URI (as the source `join` does) still yields
a URI with the same hostname, provided the hostname does not end with a
rewritten archive pattern. -/
lemma decode_full_remote {h v : List Char}
    (hsl : '/' ∉ h) (hne : h ≠ [])
    (hnj : ¬ jarBang <:+ h) (hnz : ¬ zipBang <:+ h)
    (hv : v.head? = some '/') :
    getHostname (archiveDecodeWith '/' (remoteUriToken ++ h ++ v)) = .ok h := by
  rw [archiveDecodeWith_def]
  by_cases hmem : archiveSep ∈ remoteUriToken ++ h ++ v
  · rw [if_pos hmem]
    have hr1 : replaceFirst (remoteUriToken ++ h ++ v) (jarBang ++ ['/'])
        jarBang
        = (remoteUriToken ++ h) ++ replaceFirst v (jarBang ++ ['/']) jarBang :=
      replaceFirst_append_left
        (no_early_occ_gen (by decide) (by decide) hsl hnj hv)
    have hv1h : (replaceFirst v (jarBang ++ ['/']) jarBang).head? = some '/' :=
      replaceFirst_head_slash hv rfl
    have hr2 : replaceFirst
        ((remoteUriToken ++ h) ++ replaceFirst v (jarBang ++ ['/']) jarBang)
        (zipBang ++ ['/']) zipBang
        = (remoteUriToken ++ h) ++
          replaceFirst (replaceFirst v (jarBang ++ ['/']) jarBang)
            (zipBang ++ ['/']) zipBang :=
      replaceFirst_append_left
        (no_early_occ_gen (by decide) (by decide) hsl hnz hv1h)
    have hv2h : (replaceFirst (replaceFirst v (jarBang ++ ['/']) jarBang)
        (zipBang ++ ['/']) zipBang).head? = some '/' :=
      replaceFirst_head_slash hv1h rfl
    rw [hr1, hr2]
    unfold trimArchiveSuffix
    by_cases hE : endsWithArchiveSeparator
        ((remoteUriToken ++ h) ++
          replaceFirst (replaceFirst v (jarBang ++ ['/']) jarBang)
            (zipBang ++ ['/']) zipBang) = true
    · rw [if_pos hE]
      have hgl := endsArch_getLast hE
      have hv₂ne : replaceFirst (replaceFirst v (jarBang ++ ['/']) jarBang)
          (zipBang ++ ['/']) zipBang ≠ [] := by
        intro hz
        rw [hz] at hv2h
        simp at hv2h
      have hgl' : (replaceFirst (replaceFirst v (jarBang ++ ['/']) jarBang)
          (zipBang ++ ['/']) zipBang).getLast? = some archiveSep := by
        rw [← getLast?_of_suffix ⟨remoteUriToken ++ h, rfl⟩ hv₂ne]
        exact hgl
      have hlen2 : 2 ≤ (replaceFirst (replaceFirst v (jarBang ++ ['/']) jarBang)
          (zipBang ++ ['/']) zipBang).length := by
        rcases hsp : replaceFirst (replaceFirst v (jarBang ++ ['/']) jarBang)
            (zipBang ++ ['/']) zipBang with _ | ⟨c, cs⟩
        · exact absurd hsp hv₂ne
        rcases cs with _ | ⟨d, ds⟩
        · exfalso
          rw [hsp] at hv2h hgl'
          have hc : c = '/' := by simpa using hv2h
          have hcl : c = archiveSep := by simpa using hgl'
          rw [hc] at hcl
          exact absurd hcl (by decide)
        · simp [List.length_cons]
      have htk : ((remoteUriToken ++ h) ++
            replaceFirst (replaceFirst v (jarBang ++ ['/']) jarBang)
              (zipBang ++ ['/']) zipBang).take
          (((remoteUriToken ++ h) ++
            replaceFirst (replaceFirst v (jarBang ++ ['/']) jarBang)
              (zipBang ++ ['/']) zipBang).length - 1)
          = (remoteUriToken ++ h) ++
            (replaceFirst (replaceFirst v (jarBang ++ ['/']) jarBang)
              (zipBang ++ ['/']) zipBang).take
              ((replaceFirst (replaceFirst v (jarBang ++ ['/']) jarBang)
                (zipBang ++ ['/']) zipBang).length - 1) := by
        have hll : ((remoteUriToken ++ h) ++
              replaceFirst (replaceFirst v (jarBang ++ ['/']) jarBang)
                (zipBang ++ ['/']) zipBang).length - 1
            = (remoteUriToken ++ h).length +
              ((replaceFirst (replaceFirst v (jarBang ++ ['/']) jarBang)
                (zipBang ++ ['/']) zipBang).length - 1) := by
          rw [List.length_append]
          omega
        rw [hll, List.take_append]
      rw [htk]
      have hwh : ((replaceFirst (replaceFirst v (jarBang ++ ['/']) jarBang)
          (zipBang ++ ['/']) zipBang).take
          ((replaceFirst (replaceFirst v (jarBang ++ ['/']) jarBang)
            (zipBang ++ ['/']) zipBang).length - 1)).head? = some '/' := by
        rw [head?_take (by omega)]
        exact hv2h
      have hEr := endsArch_take_pred hE
      rw [htk] at hEr
      exact getHostname_build hsl hne hwh hEr
    · rw [if_neg hE]
      exact getHostname_build hsl hne hv2h (by simpa using hE)
  · rw [if_neg hmem]
    have hEfalse : endsWithArchiveSeparator (remoteUriToken ++ h ++ v)
        = false := by
      cases hx : endsWithArchiveSeparator (remoteUriToken ++ h ++ v)
      · rfl
      · exact absurd (endsArch_mem hx) hmem
    exact getHostname_build hsl hne hv hEfalse

lemma archiveEncode_posix : archiveEncode .posix = archiveEncodeWith '/' := rfl

lemma archiveDecode_posix : archiveDecode .posix = archiveDecodeWith '/' := rfl

/-- C10 counterexample: `join` decodes the archive patterns of the WHOLE
reassembled URI (unlike `normalize`, `dirname` and `resolve`, which decode
only the path part).  On the well-formed remote URI `nuclide://x.jar!/y`
the decode rewrites `.jar!/` inside the hostname boundary, producing
`nuclide://x.jar!y` — a string with no path separator after the hostname,
whose hostname can no longer be extracted. -/
theorem C10_counterexample :
    parseRemoteUri
        ['n', 'u', 'c', 'l', 'i', 'd', 'e', ':', '/', '/',
          'x', '.', 'j', 'a', 'r', '!', '/', 'y']
      = .ok (['x', '.', 'j', 'a', 'r', '!'], ['/', 'y']) ∧
    join
        ['n', 'u', 'c', 'l', 'i', 'd', 'e', ':', '/', '/',
          'x', '.', 'j', 'a', 'r', '!', '/', 'y'] []
      = .ok ['n', 'u', 'c', 'l', 'i', 'd', 'e', ':', '/', '/',
          'x', '.', 'j', 'a', 'r', '!', 'y'] ∧
    (join
        ['n', 'u', 'c', 'l', 'i', 'd', 'e', ':', '/', '/',
          'x', '.', 'j', 'a', 'r', '!', '/', 'y'] []).bind getHostname
      = .error .remoteNoPath := by
  refine ⟨rfl, rfl, rfl⟩

/-- C10 (amended): for every well-formed remote location (one accepted by
`parseRemoteUri`), the operations `normalize`, `dirname` and `resolve`
return a remote location with the SAME hostname, unconditionally; `join`
does so provided the hostname does not end in a rewritten archive pattern
(`.jar!` or `.zip!`), the case in which its whole-URI archive decode
corrupts the hostname boundary. -/
theorem C10_remote_ops_preserve_hostname
    (uri h p cwd : List Char) (rel paths : List (List Char))
    (hpr : parseRemoteUri uri = .ok (h, p)) :
    ((normalize uri).bind getHostname = .ok h) ∧
    ((dirname uri).bind getHostname = .ok h) ∧
    ((resolve cwd uri paths).bind getHostname = .ok h) ∧
    (¬ jarBang <:+ h → ¬ zipBang <:+ h →
      (join uri rel).bind getHostname = .ok h) := by
  obtain ⟨hrem, hparse⟩ := parseRemoteUri_ok_inv hpr
  obtain ⟨huri, hsl, hph, hne, hEu⟩ := parse_ok_remote hrem hparse
  have huri' : uri = remoteUriToken ++ (h ++ p) := by
    rw [huri, List.append_assoc]
  have hatom : isAtomUri uri = false := by
    rw [huri']
    exact isAtomUri_remote _
  have htest : testForIllegalUri uri = .ok () := by
    simp [testForIllegalUri, hatom, hEu]
  have hcore : pathModuleForCore uri = .posix := by
    rw [huri']
    exact pathModuleForCore_remote _
  have hpm : pathModuleFor uri = .ok .posix := by
    simp [pathModuleFor, hEu, hcore]
  refine ⟨?_, ?_, ?_, ?_⟩
  · have hn : normalize uri = createRemoteUri h
        (archiveDecodeWith '/' (posixNormalize (archiveEncodeWith '/' p))) := by
      simp [normalize, htest, hpm, hrem, hpr, Bind.bind, Except.bind,
        pure, Except.pure, archiveEncode, archiveDecode, sepOf, nodeNormalize]
    rw [hn]
    exact getHostname_createRemote hsl hne
      (archiveDecodeWith_head (posixNormalize_abs (archiveEncodeWith_head hph)))
      (decode_not_endsArch _ _)
  · have hd : dirname uri = createRemoteUri h
        (archiveDecodeWith '/' (posixDirname (archiveEncodeWith '/' p))) := by
      simp [dirname, htest, hpm, hrem, hpr, Bind.bind, Except.bind,
        pure, Except.pure, archiveEncode, archiveDecode, sepOf, nodeDirname]
    rw [hd]
    exact getHostname_createRemote hsl hne
      (archiveDecodeWith_head (posixDirname_abs (archiveEncodeWith_head hph)))
      (decode_not_endsArch _ _)
  · have hr : resolve cwd uri paths = createRemoteUri h
        (archiveDecodeWith '/'
          (posixResolve cwd
            (archiveEncodeWith '/' p :: paths.map (archiveEncodeWith '/')))) := by
      simp [resolve, htest, hpm, hrem, hpr, Bind.bind, Except.bind,
        pure, Except.pure, archiveEncode_posix, archiveDecode_posix,
        nodeResolve]
    rw [hr]
    refine getHostname_createRemote hsl hne (archiveDecodeWith_head
      (posixResolve_abs
        ⟨archiveEncodeWith '/' p, List.mem_cons_self _ _,
          archiveEncodeWith_head hph⟩))
      (decode_not_endsArch _ _)
  · intro hnj hnz
    have hJh : (posixJoin
        (archiveEncodeWith '/' p :: rel.map (archiveEncodeWith '/'))).head?
        = some '/' := posixJoin_abs (archiveEncodeWith_head hph)
    have hJne : posixJoin
        (archiveEncodeWith '/' p :: rel.map (archiveEncodeWith '/')) ≠ [] := by
      intro hz
      rw [hz] at hJh
      simp at hJh
    have hj : join uri rel = .ok (archiveDecodeWith '/'
        (remoteUriToken ++ (h ++
          posixJoin (archiveEncodeWith '/' p ::
            rel.map (archiveEncodeWith '/'))))) := by
      simp [join, htest, hpm, hrem, hpr, Bind.bind, Except.bind,
        pure, Except.pure, archiveEncode_posix, archiveDecode_posix,
        nodeJoin, createRemoteUri, hJne]
    rw [hj]
    show getHostname (archiveDecodeWith '/' (remoteUriToken ++ (h ++
      posixJoin (archiveEncodeWith '/' p ::
        rel.map (archiveEncodeWith '/'))))) = .ok h
    rw [← List.append_assoc]
    exact decode_full_remote hsl hne hnj hnz hJh

/-- C10 witness: the amended theorem applied at the concrete remote URI
`nuclide://host/a.zip!b` with an extra `join` segment. -/
theorem C10_witness :
    parseRemoteUri
        ['n', 'u', 'c', 'l', 'i', 'd', 'e', ':', '/', '/',
          'h', 'o', 's', 't', '/', 'a']
      = .ok (['h', 'o', 's', 't'], ['/', 'a']) ∧
    (normalize
        ['n', 'u', 'c', 'l', 'i', 'd', 'e', ':', '/', '/',
          'h', 'o', 's', 't', '/', 'a']).bind getHostname
      = .ok ['h', 'o', 's', 't'] ∧
    (join
        ['n', 'u', 'c', 'l', 'i', 'd', 'e', ':', '/', '/',
          'h', 'o', 's', 't', '/', 'a'] [['b']]).bind getHostname
      = .ok ['h', 'o', 's', 't'] := by
  refine ⟨rfl, ?_, ?_⟩
  · exact (C10_remote_ops_preserve_hostname
      ['n', 'u', 'c', 'l', 'i', 'd', 'e', ':', '/', '/',
        'h', 'o', 's', 't', '/', 'a']
      ['h', 'o', 's', 't'] ['/', 'a'] [] [['b']] [] rfl).1
  · exact (C10_remote_ops_preserve_hostname
      ['n', 'u', 'c', 'l', 'i', 'd', 'e', ':', '/', '/',
        'h', 'o', 's', 't', '/', 'a']
      ['h', 'o', 's', 't'] ['/', 'a'] [] [['b']] [] rfl).2.2.2
      (by decide) (by decide)

/-- C1 counterexample: the string `"a.zip!"` satisfies the claim's stated
precondition (its single archive separator is immediately preceded by the
recognized extension `.zip` and is not followed by another archive
separator), yet the codec does not round-trip on it: encoding yields
`"a.zip!/"` and decoding that yields `"a.zip"`, because `_archiveDecode`
trims a trailing archive separator after undoing the insertions. -/
theorem C1_counterexample :
    archiveSepsWellFormed ['a', '.', 'z', 'i', 'p', '!'] = true ∧
    archiveDecode .posix (archiveEncode .posix ['a', '.', 'z', 'i', 'p', '!'])
      ≠ ['a', '.', 'z', 'i', 'p', '!'] := by
  decide

/-- C1 (amended): for every string in which each archive separator is
immediately preceded by a recognized archive extension and not immediately
followed by another archive separator, and which moreover does not END with
an archive separator, the archive codec round-trips in both dialects:
`_archiveDecode(rules, _archiveEncode(rules, s)) == s`.  The extra
final-character hypothesis excludes exactly the inputs on which the
trailing trim of `_archiveDecode` removes a character that
`_archiveEncode` never inserted. -/
theorem C1_archive_codec_round_trip (d : Dialect) (s : List Char)
    (hwf : archiveSepsWellFormed s = true)
    (hlast : s.getLast? ≠ some archiveSep) :
    archiveDecode d (archiveEncode d s) = s := by
  cases d
  · exact roundtrip_with (by decide) (by decide) hwf hlast
  · exact roundtrip_with (by decide) (by decide) hwf hlast

/-- C1 witness: the amended round trip applied to the concrete well-formed
path `"/a.zip!/b"` in the POSIX dialect. -/
theorem C1_witness :
    archiveSepsWellFormed ['/', 'a', '.', 'z', 'i', 'p', '!', '/', 'b'] = true ∧
    (['/', 'a', '.', 'z', 'i', 'p', '!', '/', 'b'] : List Char).getLast?
      ≠ some archiveSep ∧
    archiveDecode .posix
        (archiveEncode .posix ['/', 'a', '.', 'z', 'i', 'p', '!', '/', 'b'])
      = ['/', 'a', '.', 'z', 'i', 'p', '!', '/', 'b'] :=
  ⟨by decide, by decide,
    C1_archive_codec_round_trip .posix _ (by decide) (by decide)⟩

end NuclideUri
